import Mathlib

/-!
Shallow embedding of `textparser.py` (class `TextParser` plus the event
classes `MarkEvent` and `ParseEndEvent`).

Texts are `List Char`.  Python slicing with possibly negative indices is
modelled explicitly (`pyTake`, `pyDrop`).  A regular expression is an opaque
key (`Nat`) together with a search capability supplied by an environment
`SearchEnv`; a `Mark` models the Python match object, freezing the
`start()`/`end()` offsets observed at search time.  The external
`eventdispatcher` collaborator (not part of this repository) is modelled from
the interface the spec gives for it: an association list holding at most one
handler per key, with `bind_one`, `unbind_all`, `has_handlers` and firing by
lookup.  Handlers are modelled as small programs (`HandlerProg`) that can call
back into the public API of the parser, interpreted by `runHandler`; the
`parse` drain loop is fuel-indexed because the Python loop can genuinely
diverge.  Fired events are recorded in a ghost trace; each trace item also
records which handler id (if any) received the event.
-/

/-- Model of a Python `re` match object: the `start()` and `end()` offsets
frozen at search time.  `stop` stands for Python `end()` (`end` is a Lean
keyword). -/
structure Mark where
  start : Nat
  stop : Nat
deriving DecidableEq

/-- Python `s[:i]` for an `Int` index `i` (negative indices count from the
end and clamp at 0, indices past the end clamp at the length). -/
def pyTake (s : List Char) (i : Int) : List Char :=
  if 0 ≤ i then s.take i.toNat else s.take (s.length - (-i).toNat)

/-- Python `s[i:]` for an `Int` index `i` (same clamping rules as `pyTake`). -/
def pyDrop (s : List Char) (i : Int) : List Char :=
  if 0 ≤ i then s.drop i.toNat else s.drop (s.length - (-i).toNat)

/-- Search environment: regex id ↦ text ↦ leftmost match, the black-box
pattern-matching capability `regex.search(text)` of the source. -/
abbrev SearchEnv : Type := Nat → List Char → Option Mark

/-- Dispatcher of the external `eventdispatcher` collaborator, modelled from
the interface in the spec: at most one handler (a handler id) per key. -/
abbrev Dispatcher : Type := List (Nat × Nat)

/-- Dispatcher `bind_one`: install `v` as the sole handler for key `k`,
replacing any existing handler for `k`. -/
def bind_one (hs : Dispatcher) (k v : Nat) : Dispatcher :=
  if hs.any (fun p => p.1 = k) then
    hs.map (fun p => if p.1 = k then (k, v) else p)
  else hs ++ [(k, v)]

/-- Dispatcher `unbind_all`: remove any handler bound to key `k`. -/
def unbind_all (hs : Dispatcher) (k : Nat) : Dispatcher :=
  hs.filter (fun p => p.1 ≠ k)

/-- Dispatcher `has_handlers`: whether key `k` currently has a handler. -/
def has_handlers (hs : Dispatcher) (k : Nat) : Bool :=
  hs.any (fun p => p.1 = k)

/-- Handler id currently bound to key `k`, if any. -/
def get_handler (hs : Dispatcher) (k : Nat) : Option Nat :=
  (hs.find? (fun p => p.1 = k)).map Prod.snd

/-- Functional description of Python `bisect.bisect_left(l, x)` under the
library's documented precondition that `l` is sorted: the index of the first
element not less than `x`, i.e. the number of elements strictly below `x`. -/
def bisect_left (l : List Int) (x : Int) : Nat :=
  (l.takeWhile (fun y => y < x)).length

/-- Python `l.insert(i, x)` (for `i ≤ len(l)`, which is the only way the
source uses it, via `bisect_left`). -/
def pyInsert (l : List α) (i : Nat) (x : α) : List α :=
  l.take i ++ x :: l.drop i

/-- State of a `TextParser` instance.  `terminated` models the mutable
method pointer `self._update_mark_position` (`false` = the `_continue`
variant, `true` = the `_terminate` variant).  `handlers` is the embedded
dispatcher for regex keys and `parse_end_handler` its binding for the
distinguished `ParseEndEvent` key. -/
structure TextParser where
  remainder_text : List Char
  handlers : Dispatcher
  parse_end_handler : Option Nat
  terminated : Bool
  next_marks_revpos : List Int
  next_marks_match : List Mark
  next_marks_re : List Nat
deriving DecidableEq

/-- Methods `TextParser.__init__`. -/
def initTextParser (text : List Char) : TextParser :=
  { remainder_text := text
    handlers := []
    parse_end_handler := none
    terminated := false
    next_marks_revpos := []
    next_marks_match := []
    next_marks_re := [] }

/-- Method `TextParser._update_mark_position_continue`. -/
def update_mark_position_continue (σ : SearchEnv) (s : TextParser)
    (regex : Nat) : TextParser :=
  match σ regex s.remainder_text with
  | none => { s with handlers := unbind_all s.handlers regex }
  | some mark =>
      let revpos : Int := (s.remainder_text.length : Int) - mark.start
      let revposindex := bisect_left s.next_marks_revpos revpos
      { s with
        next_marks_revpos := pyInsert s.next_marks_revpos revposindex revpos
        next_marks_match := pyInsert s.next_marks_match revposindex mark
        next_marks_re := pyInsert s.next_marks_re revposindex regex }

/-- Method `TextParser._update_mark_position_terminate`.  Note that the
`regex` argument is shadowed by the loop variable in the source and hence
ignored: only the regexes still listed in `next_marks_re` are unbound. -/
def update_mark_position_terminate (s : TextParser) (_regex : Nat) :
    TextParser :=
  { s with
    handlers := s.next_marks_re.foldl (fun hs r => unbind_all hs r) s.handlers
    next_marks_revpos := []
    next_marks_match := []
    next_marks_re := [] }

/-- The dynamic `self._update_mark_position` dispatch. -/
def update_mark_position (σ : SearchEnv) (s : TextParser) (regex : Nat) :
    TextParser :=
  if s.terminated then update_mark_position_terminate s regex
  else update_mark_position_continue σ s regex

/-- Entry removal used by `reset_bindings` for a deleted binding: Python
`index = self.next_marks_re.index(regex)` followed by `del` of the entry at
that index in the three parallel lists. -/
def removeEntryOf (s : TextParser) (regex : Nat) : TextParser :=
  let index := s.next_marks_re.indexOf regex
  { s with
    next_marks_revpos := s.next_marks_revpos.eraseIdx index
    next_marks_match := s.next_marks_match.eraseIdx index
    next_marks_re := s.next_marks_re.eraseIdx index }

/-- A caller-supplied binding set, the `bindings` dict of the source: an
association list regex id ↦ handler id, in dict (= insertion) order, with
the dict's key uniqueness stated as a hypothesis where needed. -/
abbrev Bindings : Type := List (Nat × Nat)

/-- Method `TextParser.reset_bindings`.  The Python sets
`newbindings`/`delbindings` are modelled as order-preserving filters (a
deterministic refinement of CPython's unspecified set iteration order). -/
def reset_bindings (σ : SearchEnv) (s : TextParser) (bindings : Bindings) :
    TextParser :=
  let keys := bindings.map Prod.fst
  let newbindings := keys.filter (fun r => ¬ s.next_marks_re.contains r)
  let delbindings := s.next_marks_re.filter (fun r => ¬ keys.contains r)
  let s1 := { s with
    handlers := bindings.foldl (fun hs p => bind_one hs p.1 p.2) s.handlers }
  let s2 := delbindings.foldl
    (fun st r => removeEntryOf { st with handlers := unbind_all st.handlers r } r) s1
  newbindings.foldl (fun st r => update_mark_position σ st r) s2

/-- Method `TextParser.prepend_text_and_reset_bindings`. -/
def prepend_text_and_reset_bindings (σ : SearchEnv) (s : TextParser)
    (text : List Char) (bindings : Bindings) : TextParser :=
  reset_bindings σ { s with remainder_text := text ++ s.remainder_text }
    bindings

/-- Method `TextParser.bind_to_parse_end`. -/
def bind_to_parse_end (s : TextParser) (handler : Nat) : TextParser :=
  { s with parse_end_handler := some handler }

/-- Method `TextParser.terminate`: swap the `_update_mark_position` pointer
to the `_terminate` variant. -/
def terminate (s : TextParser) : TextParser :=
  { s with terminated := true }

/-- A handler, modelled as a program over the public API of the parser (a
real handler is external code that can only observe its event and call back
into these methods). -/
inductive HandlerProg where
  | pass
  | reset (bindings : Bindings)
  | prepend (text : List Char) (bindings : Bindings)
  | term
deriving DecidableEq

/-- Handler environment: handler id ↦ handler program. -/
abbrev HEnv : Type := Nat → HandlerProg

/-- Interpretation of a handler program as a state transformer. -/
def runHandler (σ : SearchEnv) : HandlerProg → TextParser → TextParser
  | .pass, s => s
  | .reset b, s => reset_bindings σ s b
  | .prepend t b, s => prepend_text_and_reset_bindings σ s t b
  | .term, s => terminate s

/-- Ghost trace item: one fired event, together with the handler id that
received it (`none` when the dispatcher had no handler for the key, in which
case firing is a no-op per the spec's registry interface). -/
inductive Event where
  | mark (regex : Nat) (handler : Option Nat) (mk : Mark)
      (parsed_text : List Char)
  | parseEnd (handler : Option Nat) (remainder_text : List Char)
deriving DecidableEq

/-- Dispatcher `fire` for a regex key: run the bound handler (if any) on the
current state. -/
def fire (σ : SearchEnv) (π : HEnv) (s : TextParser) (regex : Nat) :
    TextParser :=
  match get_handler s.handlers regex with
  | some h => runHandler σ (π h) s
  | none => s

/-- Python `del l[-1]` on each of the three parallel `next_marks_*` lists. -/
def delLast (s : TextParser) : TextParser :=
  { s with
    next_marks_revpos := s.next_marks_revpos.dropLast
    next_marks_match := s.next_marks_match.dropLast
    next_marks_re := s.next_marks_re.dropLast }

/-- The state passed to the fired handler by one drain-loop iteration: the
remainder already advanced past the consumed match (`startpos`/`endpos`
recovered from the extracted entry as in the source), everything else
untouched.  This names the intermediate `self` of `TextParser.parse` at the
moment the `MarkEvent` is fired. -/
def consumedState (s : TextParser) : TextParser :=
  let revpos := s.next_marks_revpos.getLastD 0
  let mark := s.next_marks_match.getLastD ⟨0, 0⟩
  let startpos : Int := revpos * (-1)
  let endpos : Int := startpos - mark.start + mark.stop
  { s with
    remainder_text :=
      if endpos < 0 then pyDrop s.remainder_text endpos else [] }

/-- One iteration of the `while True` body of `TextParser.parse`, under the
precondition (checked by the caller `parseLoop`) that `next_marks_revpos` is
nonempty.  Returns the new state and the fired `MarkEvent`. -/
def parseIterate (σ : SearchEnv) (π : HEnv) (s : TextParser) :
    TextParser × Event :=
  let revpos := s.next_marks_revpos.getLastD 0
  let mark := s.next_marks_match.getLastD ⟨0, 0⟩
  let startpos : Int := revpos * (-1)
  let endpos : Int := startpos - mark.start + mark.stop
  let regex := s.next_marks_re.getLastD 0
  let parsed_text := pyTake s.remainder_text startpos
  let s1 := { s with
    remainder_text :=
      if endpos < 0 then pyDrop s.remainder_text endpos else [] }
  let ev := Event.mark regex (get_handler s1.handlers regex) mark parsed_text
  let s2 := fire σ π s1 regex
  let s3 :=
    if has_handlers s2.handlers regex then
      update_mark_position σ (delLast s2) regex
    else s2
  (s3, ev)

/-- The `while True` loop of `TextParser.parse`, fuel-indexed (`none` means
the fuel ran out, modelling a run of more iterations than `fuel`, including
genuine divergence).  Returns the final state and the MarkEvent trace. -/
def parseLoop (σ : SearchEnv) (π : HEnv) :
    Nat → TextParser → Option (TextParser × List Event)
  | 0, _ => none
  | fuel + 1, s =>
      if s.next_marks_revpos = [] then some (s, [])
      else
        let r := parseIterate σ π s
        (parseLoop σ π fuel r.1).map (fun q => (q.1, r.2 :: q.2))

/-- Method `TextParser.parse`: drain loop, then the terminal
`ParseEndEvent` firing, then return of `self.remainder_text`.  Result:
final state, fired-event trace, returned remainder. -/
def parse (σ : SearchEnv) (π : HEnv) (fuel : Nat) (s : TextParser) :
    Option (TextParser × List Event × List Char) :=
  (parseLoop σ π fuel s).map fun q =>
    let ev := Event.parseEnd q.1.parse_end_handler q.1.remainder_text
    let s2 := match q.1.parse_end_handler with
      | some h => runHandler σ (π h) q.1
      | none => q.1
    (s2, q.2 ++ [ev], s2.remainder_text)

/-- Whether `pat` is a prefix of `t` (character-by-character). -/
def leadsWith : List Char → List Char → Bool
  | [], _ => true
  | _ :: _, [] => false
  | a :: as, b :: bs => a = b && leadsWith as bs

/-- Index of the leftmost occurrence of `pat` in `t`, if any. -/
def litFind (t pat : List Char) : Option Nat :=
  if leadsWith pat t then some 0
  else
    match t with
    | [] => none
    | _ :: t1 => (litFind t1 pat).map (· + 1)

/-- Leftmost-match search for a literal string pattern, a concrete instance
of the black-box pattern-matching capability. -/
def litSearch (pat t : List Char) : Option Mark :=
  (litFind t pat).map (fun i => ⟨i, i + pat.length⟩)

/-- A concrete `SearchEnv` mapping regex id `i` to literal pattern
`pats.getD i []` (ids beyond the list behave as the empty literal). -/
def litEnv (pats : List (List Char)) : SearchEnv :=
  fun r t => litSearch (pats.getD r []) t

/-- The all-passive handler environment: every handler only observes its
event. -/
def passiveEnv : HEnv := fun _ => HandlerProg.pass

/-- Reference process, step choice: the leftmost match among the bound
patterns `bs` (in binding order) over the current remainder `t`; ties on
the start offset keep the earlier-bound pattern. -/
def refPick (σ : SearchEnv) (bs : List Nat) (t : List Char) :
    Option (Nat × Mark) :=
  bs.foldl
    (fun acc r =>
      match σ r t with
      | none => acc
      | some m =>
          match acc with
          | none => some (r, m)
          | some q => if m.start < q.2.start then some (r, m) else acc)
    none

/-- Observable event of one firing, common to the reference process and to
the abstraction of the embedded parser's trace: fired pattern, the processed
text delivered with the match, and the match length (the only component of
the cached match object that is snapshot-independent). -/
inductive AbsEvent where
  | mark (regex : Nat) (parsed : List Char) (mlen : Nat)
  | done (leftover : List Char)
deriving DecidableEq

/-- Reference process: repeatedly take the leftmost match among the bound
patterns over the current remainder, deliver the preceding text, and
continue past the match; when no pattern matches, deliver the leftover.
Fuel-indexed; `none` means the process takes more than `fuel` steps. -/
def refRun (σ : SearchEnv) (bs : List Nat) :
    Nat → List Char → Option (List AbsEvent)
  | 0, _ => none
  | fuel + 1, t =>
      match refPick σ bs t with
      | none => some [AbsEvent.done t]
      | some q =>
          (refRun σ bs fuel (t.drop q.2.stop)).map
            (fun evs =>
              AbsEvent.mark q.1 (t.take q.2.start) (q.2.stop - q.2.start)
                :: evs)

/-- Non-overlap along the reference run, half-open-span version: at every
step, no pattern other than the consumed one has a match starting in
`[start, stop)` of the consumed match. -/
def refOK (σ : SearchEnv) (bs : List Nat) :
    Nat → List Char → Bool
  | 0, _ => true
  | fuel + 1, t =>
      match refPick σ bs t with
      | none => true
      | some q =>
          (bs.all fun r =>
            r = q.1 ||
              match σ r t with
              | none => true
              | some m =>
                  decide (m.start < q.2.start) || decide (q.2.stop ≤ m.start))
          && refOK σ bs fuel (t.drop q.2.stop)
/-- Non-overlap along the reference run, strict-interior version (the
hypothesis exactly as the claim words it: no pattern's match starts
strictly inside the consumed span). -/
def refOKstrict (σ : SearchEnv) (bs : List Nat) :
    Nat → List Char → Bool
  | 0, _ => true
  | fuel + 1, t =>
      match refPick σ bs t with
      | none => true
      | some q =>
          (bs.all fun r =>
            match σ r t with
            | none => true
            | some m =>
                decide (m.start ≤ q.2.start) || decide (q.2.stop ≤ m.start))
          && refOKstrict σ bs fuel (t.drop q.2.stop)

/-- Abstraction of the embedded parser's ghost trace to the observable
events compared with the reference process. -/
def absEvent : Event → AbsEvent
  | .mark regex _ mk parsed => AbsEvent.mark regex parsed (mk.stop - mk.start)
  | .parseEnd _ t => AbsEvent.done t

/-- Interleaving of the processed fields of a trace with a list `ms` of
matched-text segments (one per firing, in firing order), ending with the
trace's leftover: `parsed₁ ++ ms₁ ++ parsed₂ ++ ms₂ ++ ⋯ ++ leftover`. -/
def interleaveParsed : List AbsEvent → List (List Char) → List Char
  | [], _ => []
  | .done leftover :: _, _ => leftover
  | .mark _ parsed _ :: evs, [] => parsed ++ interleaveParsed evs []
  | .mark _ parsed _ :: evs, m :: ms => parsed ++ m ++ interleaveParsed evs ms

/-- Concatenation of only the processed fields of a trace, in firing order
(the quantity the concatenation-law claim is about). -/
def parsedConcat : List AbsEvent → List Char
  | [] => []
  | .done _ :: evs => parsedConcat evs
  | .mark _ parsed _ :: evs => parsed ++ parsedConcat evs

/-- Zipped view of the three parallel `next_marks_*` lists as a single list
of entries `(distance_from_end, cached match, regex id)`; the proof device
for the parallel-list invariants. -/
def entriesOf (s : TextParser) : List (Int × Mark × Nat) :=
  s.next_marks_revpos.zip (s.next_marks_match.zip s.next_marks_re)

/-- The cached `(distance_from_end, match)` pair of a regex, if it has an
entry. -/
def lookupEntry (s : TextParser) (r : Nat) : Option (Int × Mark) :=
  ((entriesOf s).find? (fun e => e.2.2 = r)).map (fun e => (e.1, e.2.1))

/-! Concrete search environments, binding sets, handler environments and
states used by witnesses and counterexamples.  Handler ids are arbitrary
distinct numbers. -/

/-- Pattern 0 is the literal `X`. -/
def sEnvX : SearchEnv := litEnv ["X".toList]

/-- The spec's scenario state: text `aXbXc`, pattern `X` bound. -/
def stateAXbXc : TextParser :=
  reset_bindings sEnvX (initTextParser "aXbXc".toList) [(0, 10)]

/-- Pattern 0 is the literal `ab`, pattern 1 the literal `a`. -/
def sEnvAbA : SearchEnv := litEnv ["ab".toList, "a".toList]

/-- Text `ab` with `ab` bound before `a`: both match at offset 0. -/
def stateAb : TextParser :=
  reset_bindings sEnvAbA (initTextParser "ab".toList) [(0, 10), (1, 11)]

/-- Pattern 0 is the literal `a`, pattern 1 the literal `ab` (the spec's
tie scenario over `xaby`, both matching at offset 1). -/
def sEnvTie : SearchEnv := litEnv ["a".toList, "ab".toList]

/-- Text `xaby` with `a` bound before `ab`. -/
def stateXaby : TextParser :=
  reset_bindings sEnvTie (initTextParser "xaby".toList) [(0, 10), (1, 11)]

/-- Pattern 0 is the literal `X`, pattern 1 the literal `XZ`. -/
def sEnvPre : SearchEnv := litEnv ["X".toList, "XZ".toList]

/-- Handler 20 prepends `XZ` and binds pattern 1 (literal `XZ`, matching at
the start of the prepended text) next to the fired pattern 0; all other
handlers are passive. -/
def hEnvPre : HEnv :=
  fun h => if h = 20 then .prepend "XZ".toList [(0, 21), (1, 22)] else .pass

/-- Text `aXb` with pattern 0 (literal `X`) bound to the prepending
handler 20. -/
def statePre : TextParser :=
  reset_bindings sEnvPre (initTextParser "aXb".toList) [(0, 20)]

/-- A terminated parser in which regex 5 is still bound in the dispatcher
but its entry was already removed (as the drain loop does for the fired
pattern), while regex 6 still has its entry. -/
def stateTermC6 : TextParser :=
  { initTextParser "abc".toList with
    handlers := [(5, 50), (6, 60)]
    terminated := true
    next_marks_revpos := [1]
    next_marks_match := [⟨2, 3⟩]
    next_marks_re := [6] }

/-- Pattern 0 is the literal `bar`. -/
def sEnvFoo : SearchEnv := litEnv ["bar".toList]

/-- Text `foo` with only the literal `bar` bound: no pattern ever matches. -/
def stateFoo : TextParser :=
  reset_bindings sEnvFoo (initTextParser "foo".toList) [(0, 7)]

/-- Handler 20 rebinds handler 21 (passive) to its own pattern 0 during its
firing; all other handlers are passive. -/
def hEnvRebind : HEnv := fun h => if h = 20 then .reset [(0, 21)] else .pass

/-- Text `aXbXc` with pattern 0 (literal `X`) bound to the rebinding
handler 20. -/
def stateRebind : TextParser :=
  reset_bindings sEnvX (initTextParser "aXbXc".toList) [(0, 20)]

/-- Handler 20 unbinds every pattern (in particular its own) during its
firing. -/
def hEnvUnbind : HEnv := fun h => if h = 20 then .reset [] else .pass

/-- Well-formedness of a search capability: a reported match lies within the
searched text. -/
def SearchWF (σ : SearchEnv) : Prop :=
  ∀ r t m, σ r t = some m → m.start ≤ m.stop ∧ m.stop ≤ t.length

/-- Translation invariance of leftmost-match search: dropping a prefix that
ends at or before the leftmost match shifts that match accordingly.  This is
the property of the black-box search primitive that the incremental
`distance_from_end` scheme relies on. -/
def ShiftCoherent (σ : SearchEnv) : Prop :=
  ∀ r t m k, σ r t = some m → k ≤ m.start →
    σ r (t.drop k) = some ⟨m.start - k, m.stop - k⟩

/-- Failure stability of leftmost-match search: a pattern with no match in a
text has no match in any suffix of it. -/
def NoneStable (σ : SearchEnv) : Prop :=
  ∀ r t k, σ r t = none → σ r (t.drop k) = none

/-- Whether a handler program never injects text. -/
def noPrependProg : HandlerProg → Bool
  | .prepend _ _ => false
  | _ => true

/-- Whether a handler program's binding set mentions regex `r`. -/
def progBinds (r : Nat) : HandlerProg → Bool
  | .pass => false
  | .term => false
  | .reset b => (b.map Prod.fst).contains r
  | .prepend _ b => (b.map Prod.fst).contains r

/-- Whether a trace event is a firing of regex `r`. -/
def firesRegex (r : Nat) : Event → Bool
  | .mark r2 _ _ _ => r2 = r
  | .parseEnd _ _ => false

/-- The handler id carried by a trace event. -/
def eventHandler : Event → Option Nat
  | .mark _ h _ _ => h
  | .parseEnd h _ => h

/-- The match lengths of the mark events of a trace, in firing order. -/
def mlens : List AbsEvent → List Nat
  | [] => []
  | .done _ :: evs => mlens evs
  | .mark _ _ l :: evs => l :: mlens evs

/-- The structural invariant of the scheduler state claimed by the spec:
parallel lists of equal length, ascending `distance_from_end`, and at most
one entry per regex. -/
def ParserInv (s : TextParser) : Prop :=
  s.next_marks_match.length = s.next_marks_revpos.length ∧
  s.next_marks_re.length = s.next_marks_revpos.length ∧
  s.next_marks_revpos.Sorted (· ≤ ·) ∧
  s.next_marks_re.Nodup

/-- Simulation invariant tying a parser state to the reference process state
(current remainder `t`, bound patterns `bs`): every entry caches, in
tail-relative form, the current leftmost match of its pattern, patterns
without an entry have no match, and the dispatcher binds exactly the
patterns with entries. -/
structure SimInv (σ : SearchEnv) (bs : List Nat) (s : TextParser)
    (t : List Char) : Prop where
  rem : s.remainder_text = t
  nterm : s.terminated = false
  lenM : s.next_marks_match.length = s.next_marks_revpos.length
  lenR : s.next_marks_re.length = s.next_marks_revpos.length
  sorted : s.next_marks_revpos.Sorted (· ≤ ·)
  nodup : s.next_marks_re.Nodup
  sub : ∀ r ∈ s.next_marks_re, r ∈ bs
  val : ∀ e ∈ entriesOf s, ∃ m, σ e.2.2 t = some m ∧
    e.1 = (t.length : Int) - m.start ∧
    (e.2.1.stop : Int) - e.2.1.start = (m.stop : Int) - m.start ∧
    m.start ≤ m.stop ∧ m.stop ≤ t.length
  covered : ∀ r ∈ bs, r ∉ s.next_marks_re → σ r t = none
  disp : ∀ r : Nat, has_handlers s.handlers r = s.next_marks_re.contains r

/-! Basic lemmas about the Python-slicing and insertion helpers. -/

theorem pyTake_of_neg (s : List Char) (i : Int) (h : i < 0) :
    pyTake s i = s.take (s.length - (-i).toNat) := by
  unfold pyTake
  rw [if_neg (by omega)]

theorem pyDrop_of_neg (s : List Char) (i : Int) (h : i < 0) :
    pyDrop s i = s.drop (s.length - (-i).toNat) := by
  unfold pyDrop
  rw [if_neg (by omega)]

theorem pyInsert_perm (l : List α) (i : Nat) (x : α) :
    (pyInsert l i x).Perm (x :: l) := by
  unfold pyInsert
  have h := @List.perm_middle _ x (l.take i) (l.drop i)
  rwa [List.take_append_drop] at h

theorem length_pyInsert (l : List α) (i : Nat) (x : α) :
    (pyInsert l i x).length = l.length + 1 :=
  (pyInsert_perm l i x).length_eq

theorem mem_pyInsert (l : List α) (i : Nat) (x a : α) :
    a ∈ pyInsert l i x ↔ a = x ∨ a ∈ l := by
  rw [(pyInsert_perm l i x).mem_iff, List.mem_cons]

theorem nodup_pyInsert (l : List α) (i : Nat) (x : α) (hx : x ∉ l)
    (hl : l.Nodup) : (pyInsert l i x).Nodup :=
  (pyInsert_perm l i x).nodup_iff.mpr (List.nodup_cons.mpr ⟨hx, hl⟩)

theorem take_bisect_eq_takeWhile (l : List Int) (x : Int) :
    l.take (bisect_left l x) = l.takeWhile (fun y => y < x) := by
  unfold bisect_left
  exact (List.prefix_iff_eq_take.mp (l.takeWhile_prefix _)).symm

theorem drop_bisect_eq_dropWhile (l : List Int) (x : Int) :
    l.drop (bisect_left l x) = l.dropWhile (fun y => y < x) := by
  have key : ∀ a b : List Int, a ++ b = l → a.length = bisect_left l x →
      l.drop (bisect_left l x) = b := by
    intro a b hab hlen
    subst hab
    rw [← hlen, List.drop_left]
  exact key _ _ (List.takeWhile_append_dropWhile ..) rfl

theorem bisect_left_le_length (l : List Int) (x : Int) :
    bisect_left l x ≤ l.length :=
  (l.takeWhile_sublist _).length_le

theorem mem_take_bisect_lt (l : List Int) (x y : Int)
    (hy : y ∈ l.take (bisect_left l x)) : y < x := by
  rw [take_bisect_eq_takeWhile] at hy
  simpa using List.mem_takeWhile_imp hy

theorem sorted_dropWhile_ge (x : Int) :
    ∀ l : List Int, l.Sorted (· ≤ ·) →
      ∀ y ∈ l.dropWhile (fun z => z < x), x ≤ y := by
  intro l
  induction l with
  | nil => intro _ y hy; simp [List.dropWhile] at hy
  | cons a l ih =>
      intro hs y hy
      rw [List.dropWhile_cons] at hy
      by_cases ha : a < x
      · rw [if_pos (by simpa using ha)] at hy
        exact ih hs.of_cons y hy
      · rw [if_neg (by simpa using ha)] at hy
        rcases List.mem_cons.mp hy with rfl | hy2
        · omega
        · have := (List.sorted_cons.mp hs).1 y hy2
          omega

theorem mem_drop_bisect_ge (l : List Int) (x y : Int)
    (hs : l.Sorted (· ≤ ·)) (hy : y ∈ l.drop (bisect_left l x)) : x ≤ y := by
  rw [drop_bisect_eq_dropWhile] at hy
  exact sorted_dropWhile_ge x l hs y hy

theorem sorted_pyInsert_bisect (l : List Int) (x : Int)
    (h : l.Sorted (· ≤ ·)) :
    (pyInsert l (bisect_left l x) x).Sorted (· ≤ ·) := by
  unfold pyInsert
  rw [take_bisect_eq_takeWhile, drop_bisect_eq_dropWhile]
  rw [List.Sorted, List.pairwise_append]
  refine ⟨h.sublist (l.takeWhile_sublist _), ?_, ?_⟩
  · rw [List.pairwise_cons]
    exact ⟨sorted_dropWhile_ge x l h, h.sublist (l.dropWhile_sublist _)⟩
  · intro a ha b hb
    have ha2 : a < x := by simpa using List.mem_takeWhile_imp ha
    rcases List.mem_cons.mp hb with rfl | hb2
    · omega
    · have := sorted_dropWhile_ge x l h b hb2
      omega

/-! Basic lemmas about the dispatcher model. -/

theorem has_handlers_iff_get (hs : Dispatcher) (k : Nat) :
    has_handlers hs k = true ↔ ∃ v, get_handler hs k = some v := by
  unfold has_handlers get_handler
  induction hs with
  | nil => simp
  | cons p hs ih =>
      by_cases hp : p.1 = k
      · simp [List.any_cons, List.find?_cons, hp]
      · simpa [List.any_cons, List.find?_cons, hp] using ih

theorem get_handler_eq_none (hs : Dispatcher) (k : Nat) :
    get_handler hs k = none ↔ has_handlers hs k = false := by
  constructor
  · intro h
    by_contra hne
    have h2 : has_handlers hs k = true := by
      cases hhk : has_handlers hs k
      · exact absurd hhk hne
      · rfl
    rcases (has_handlers_iff_get hs k).mp h2 with ⟨v, hv⟩
    rw [h] at hv
    exact Option.noConfusion hv
  · intro h
    cases hg : get_handler hs k with
    | none => rfl
    | some v =>
        have h2 := (has_handlers_iff_get hs k).mpr ⟨v, hg⟩
        rw [h] at h2
        exact Bool.noConfusion h2

theorem get_handler_map_rebind (hs : Dispatcher) (k v k2 : Nat) :
    get_handler (hs.map (fun p => if p.1 = k then (k, v) else p)) k2 =
      if k2 = k then (if has_handlers hs k then some v else none)
      else get_handler hs k2 := by
  induction hs with
  | nil =>
      unfold get_handler has_handlers
      by_cases hk : k2 = k <;> simp [hk]
  | cons p hs ih =>
      unfold get_handler has_handlers at ih ⊢
      by_cases hpk : p.1 = k
      · by_cases hk : k2 = k
        · subst hk
          simp [List.map_cons, hpk, List.find?_cons_of_pos, List.any_cons]
        · rw [List.map_cons, if_pos hpk]
          rw [List.find?_cons_of_neg _ (by simpa using fun hc : k = k2 => hk hc.symm)]
          rw [List.find?_cons_of_neg _ (by simpa [hpk] using fun hc : k = k2 => hk hc.symm)]
          simpa [hk] using ih
      · by_cases hp2 : p.1 = k2
        · have hk : ¬(k2 = k) := fun hc => hpk (by rw [hp2, hc])
          rw [List.map_cons, if_neg hpk]
          rw [List.find?_cons_of_pos _ (by simpa using hp2)]
          rw [if_neg hk]
          rw [List.find?_cons_of_pos _ (by simpa using hp2)]
        · rw [List.map_cons, if_neg hpk]
          rw [List.find?_cons_of_neg _ (by simpa using hp2)]
          rw [ih]
          by_cases hk : k2 = k
          · rw [if_pos hk, if_pos hk, List.any_cons]
            have hd : decide (p.1 = k) = false := by simp [hpk]
            rw [hd, Bool.false_or]
          · rw [if_neg hk, if_neg hk]
            rw [List.find?_cons_of_neg _ (by simpa using hp2)]

theorem get_handler_bind_one (hs : Dispatcher) (k v k2 : Nat) :
    get_handler (bind_one hs k v) k2 =
      if k2 = k then some v else get_handler hs k2 := by
  unfold bind_one
  by_cases h : hs.any (fun p => p.1 = k)
  · rw [if_pos h, get_handler_map_rebind]
    by_cases hk : k2 = k
    · rw [if_pos hk, if_pos hk]
      have h2 : has_handlers hs k = true := h
      rw [h2]
      simp
    · rw [if_neg hk, if_neg hk]
  · rw [if_neg h]
    unfold get_handler
    rw [List.find?_append]
    have hnone : List.find? (fun p => p.1 = k) hs = none := by
      rw [List.find?_eq_none]
      intro p hp hc
      exact absurd (List.any_eq_true.mpr ⟨p, hp, hc⟩) h
    by_cases hk : k2 = k
    · subst hk
      rw [hnone]
      simp
    · cases hf : List.find? (fun p => decide (p.1 = k2)) hs with
      | none =>
          rw [if_neg hk]
          simp only [hf, Option.none_or]
          rw [List.find?_cons_of_neg _ (by simpa using fun hc : k = k2 => hk hc.symm)]
          simp
      | some p =>
          rw [if_neg hk]
          simp [hf]

theorem get_handler_unbind_all (hs : Dispatcher) (k k2 : Nat) :
    get_handler (unbind_all hs k) k2 =
      if k2 = k then none else get_handler hs k2 := by
  induction hs with
  | nil =>
      unfold unbind_all get_handler
      by_cases hk : k2 = k <;> simp [hk]
  | cons p hs ih =>
      unfold unbind_all get_handler at ih ⊢
      rw [List.filter_cons]
      by_cases hpk : p.1 = k
      · rw [if_neg (by simp [hpk])]
        by_cases hp2 : p.1 = k2
        · have hk : k2 = k := by rw [← hp2, hpk]
          rw [if_pos hk] at ih ⊢
          rw [ih]
        · rw [List.find?_cons_of_neg _ (by simpa using hp2)]
          exact ih
      · rw [if_pos (by simp [hpk])]
        by_cases hp2 : p.1 = k2
        · have hk : ¬(k2 = k) := fun hc => hpk (by rw [hp2, hc])
          rw [List.find?_cons_of_pos _ (by simpa using hp2)]
          rw [if_neg hk]
          rw [List.find?_cons_of_pos _ (by simpa using hp2)]
        · rw [List.find?_cons_of_neg _ (by simpa using hp2)]
          rw [ih]
          by_cases hk : k2 = k
          · rw [if_pos hk, if_pos hk]
          · rw [if_neg hk, if_neg hk]
            rw [List.find?_cons_of_neg _ (by simpa using hp2)]

theorem has_handlers_bind_one (hs : Dispatcher) (k v k2 : Nat) :
    has_handlers (bind_one hs k v) k2 =
      (has_handlers hs k2 || decide (k2 = k)) := by
  rw [Bool.eq_iff_iff, Bool.or_eq_true_iff, has_handlers_iff_get,
    has_handlers_iff_get, get_handler_bind_one]
  by_cases hk : k2 = k
  · simp [hk]
  · simp [hk]

theorem has_handlers_unbind_all (hs : Dispatcher) (k k2 : Nat) :
    has_handlers (unbind_all hs k) k2 =
      (has_handlers hs k2 && !(decide (k2 = k))) := by
  rw [Bool.eq_iff_iff, Bool.and_eq_true_iff, has_handlers_iff_get,
    has_handlers_iff_get, get_handler_unbind_all]
  by_cases hk : k2 = k
  · simp [hk]
  · simp [hk]

/-! Lemmas about literal-string search: it is a well-formed, shift-coherent,
failure-stable leftmost-match capability. -/

theorem litFind_nil (pat : List Char) :
    litFind [] pat = if leadsWith pat [] then some 0 else none := by
  conv_lhs => rw [litFind]

theorem litFind_cons_pos (c : Char) (t1 pat : List Char)
    (hl : leadsWith pat (c :: t1) = true) :
    litFind (c :: t1) pat = some 0 := by
  conv_lhs => rw [litFind]
  rw [if_pos hl]

theorem litFind_cons_neg (c : Char) (t1 pat : List Char)
    (hl : ¬(leadsWith pat (c :: t1) = true)) :
    litFind (c :: t1) pat = (litFind t1 pat).map (· + 1) := by
  conv_lhs => rw [litFind]
  rw [if_neg hl]

theorem leadsWith_length : ∀ pat t : List Char, leadsWith pat t = true →
    pat.length ≤ t.length := by
  intro pat
  induction pat with
  | nil => intro t _; simp
  | cons a as ih =>
      intro t h
      cases t with
      | nil => exact absurd h (by simp [leadsWith])
      | cons b bs =>
          have h2 := ih bs (by
            unfold leadsWith at h
            exact (Bool.and_eq_true_iff.mp h).2)
          simpa using h2

theorem litFind_le_length (t pat : List Char) (i : Nat)
    (h : litFind t pat = some i) : i + pat.length ≤ t.length := by
  induction t generalizing i with
  | nil =>
      rw [litFind_nil] at h
      by_cases hl : leadsWith pat [] = true
      · rw [if_pos hl] at h
        cases h
        simpa using leadsWith_length pat [] hl
      · rw [if_neg hl] at h
        exact absurd h (by simp)
  | cons c t1 ih =>
      by_cases hl : leadsWith pat (c :: t1) = true
      · rw [litFind_cons_pos c t1 pat hl] at h
        cases h
        simpa using leadsWith_length pat (c :: t1) hl
      · rw [litFind_cons_neg c t1 pat hl] at h
        rcases Option.map_eq_some'.mp h with ⟨j, hj, rfl⟩
        have := ih j hj
        simp only [List.length_cons]
        omega

theorem litFind_shift (t pat : List Char) (i : Nat)
    (h : litFind t pat = some i) :
    ∀ k ≤ i, litFind (t.drop k) pat = some (i - k) := by
  induction t generalizing i with
  | nil =>
      intro k hk
      rw [litFind_nil] at h
      by_cases hl : leadsWith pat [] = true
      · rw [if_pos hl] at h
        cases h
        have hk0 : k = 0 := Nat.le_zero.mp hk
        subst hk0
        rw [List.drop_nil, litFind_nil, if_pos hl]
      · rw [if_neg hl] at h
        exact absurd h (by simp)
  | cons c t1 ih =>
      intro k hk
      cases k with
      | zero => simpa using h
      | succ k1 =>
          by_cases hl : leadsWith pat (c :: t1) = true
          · rw [litFind_cons_pos c t1 pat hl] at h
            cases h
            omega
          · rw [litFind_cons_neg c t1 pat hl] at h
            rcases Option.map_eq_some'.mp h with ⟨j, hj, rfl⟩
            have h2 := ih j hj k1 (by omega)
            rw [List.drop_succ_cons, h2]
            congr 1
            omega

theorem litFind_none_shift (t pat : List Char)
    (h : litFind t pat = none) :
    ∀ k, litFind (t.drop k) pat = none := by
  induction t with
  | nil =>
      intro k
      simpa [List.drop_nil] using h
  | cons c t1 ih =>
      intro k
      by_cases hl : leadsWith pat (c :: t1) = true
      · rw [litFind_cons_pos c t1 pat hl] at h
        exact absurd h (by simp)
      · rw [litFind_cons_neg c t1 pat hl] at h
        have h2 : litFind t1 pat = none := by
          cases hf : litFind t1 pat with
          | none => rfl
          | some j => rw [hf] at h; exact absurd h (by simp)
        cases k with
        | zero =>
            rw [List.drop_zero, litFind_cons_neg c t1 pat hl, h2]
            rfl
        | succ k1 =>
            rw [List.drop_succ_cons]
            exact ih h2 k1

theorem litEnv_wf (pats : List (List Char)) : SearchWF (litEnv pats) := by
  intro r t m h
  unfold litEnv litSearch at h
  rcases Option.map_eq_some'.mp h with ⟨i, hi, rfl⟩
  have := litFind_le_length t _ i hi
  constructor
  · simp
  · simpa using this

theorem litEnv_shift (pats : List (List Char)) :
    ShiftCoherent (litEnv pats) := by
  intro r t m k h hk
  unfold litEnv litSearch at h ⊢
  rcases Option.map_eq_some'.mp h with ⟨i, hi, rfl⟩
  have hk2 : k ≤ i := hk
  rw [litFind_shift t _ i hi k hk2]
  simp only [Option.map_some']
  congr 1
  simp only [Mark.mk.injEq]
  refine ⟨trivial, ?_⟩
  omega

theorem litEnv_none (pats : List (List Char)) : NoneStable (litEnv pats) := by
  intro r t k h
  unfold litEnv litSearch at h ⊢
  cases hf : litFind t (pats.getD r []) with
  | none => rw [litFind_none_shift t _ hf k]; rfl
  | some i => rw [hf] at h; exact absurd h (by simp)

/-! Machinery relating the three parallel lists to their zipped entry view. -/

theorem zip_take_eq (a : List α) (b : List β) (i : Nat) :
    (a.zip b).take i = (a.take i).zip (b.take i) := List.take_zipWith

theorem zip_drop_eq (a : List α) (b : List β) (i : Nat) :
    (a.zip b).drop i = (a.drop i).zip (b.drop i) := List.drop_zipWith

theorem pyInsert_zip (a : List α) (b : List β) (i : Nat) (x : α) (y : β)
    (hlen : a.length = b.length) (hi : i ≤ a.length) :
    (pyInsert a i x).zip (pyInsert b i y) = pyInsert (a.zip b) i (x, y) := by
  unfold pyInsert
  rw [List.zip_append (by simp only [List.length_take]; omega)]
  rw [List.zip_cons_cons, zip_take_eq, zip_drop_eq]

theorem entriesOf_pyInsert (s : TextParser) (rv : Int) (mk : Mark) (r : Nat)
    (i : Nat)
    (lenM : s.next_marks_match.length = s.next_marks_revpos.length)
    (lenR : s.next_marks_re.length = s.next_marks_revpos.length)
    (hi : i ≤ s.next_marks_revpos.length) :
    (pyInsert s.next_marks_revpos i rv).zip
      ((pyInsert s.next_marks_match i mk).zip (pyInsert s.next_marks_re i r)) =
      pyInsert (entriesOf s) i (rv, mk, r) := by
  rw [pyInsert_zip s.next_marks_match s.next_marks_re i mk r (by omega)
    (by omega)]
  rw [pyInsert_zip s.next_marks_revpos (s.next_marks_match.zip s.next_marks_re)
    i rv (mk, r) (by simp only [List.length_zip]; omega) (by omega)]
  rfl

theorem zip_dropLast (a : List α) (b : List β) (h : a.length = b.length) :
    a.dropLast.zip b.dropLast = (a.zip b).dropLast := by
  rw [List.dropLast_eq_take, List.dropLast_eq_take, List.dropLast_eq_take,
    zip_take_eq]
  have h2 : (a.zip b).length = a.length := by simp [List.length_zip, h]
  rw [h2, ← h]

theorem entriesOf_delLast (s : TextParser)
    (lenM : s.next_marks_match.length = s.next_marks_revpos.length)
    (lenR : s.next_marks_re.length = s.next_marks_revpos.length) :
    entriesOf (delLast s) = (entriesOf s).dropLast := by
  unfold entriesOf delLast
  simp only
  rw [zip_dropLast s.next_marks_match s.next_marks_re (by omega)]
  rw [zip_dropLast s.next_marks_revpos (s.next_marks_match.zip s.next_marks_re)
    (by simp only [List.length_zip]; omega)]

theorem zip_eraseIdx (a : List α) (b : List β) (i : Nat)
    (h : a.length = b.length) :
    (a.eraseIdx i).zip (b.eraseIdx i) = (a.zip b).eraseIdx i := by
  rw [List.eraseIdx_eq_take_drop_succ, List.eraseIdx_eq_take_drop_succ,
    List.eraseIdx_eq_take_drop_succ]
  rw [List.zip_append (by simp only [List.length_take]; omega)]
  rw [zip_take_eq, zip_drop_eq]

theorem entriesOf_removeEntryOf (s : TextParser) (r : Nat)
    (lenM : s.next_marks_match.length = s.next_marks_revpos.length)
    (lenR : s.next_marks_re.length = s.next_marks_revpos.length) :
    entriesOf (removeEntryOf s r) =
      (entriesOf s).eraseIdx (s.next_marks_re.indexOf r) := by
  unfold entriesOf removeEntryOf
  simp only
  rw [zip_eraseIdx s.next_marks_match s.next_marks_re _ (by omega)]
  rw [zip_eraseIdx s.next_marks_revpos (s.next_marks_match.zip s.next_marks_re)
    _ (by simp only [List.length_zip]; omega)]

theorem entries_map_fst (s : TextParser)
    (lenM : s.next_marks_match.length = s.next_marks_revpos.length)
    (lenR : s.next_marks_re.length = s.next_marks_revpos.length) :
    (entriesOf s).map Prod.fst = s.next_marks_revpos := by
  unfold entriesOf
  exact List.map_fst_zip _ _ (by simp only [List.length_zip]; omega)

theorem entries_map_re (s : TextParser)
    (lenM : s.next_marks_match.length = s.next_marks_revpos.length)
    (lenR : s.next_marks_re.length = s.next_marks_revpos.length) :
    (entriesOf s).map (fun e => e.2.2) = s.next_marks_re := by
  unfold entriesOf
  have h1 : (fun e : Int × Mark × Nat => e.2.2) =
      (Prod.snd ∘ Prod.snd : Int × Mark × Nat → Nat) := rfl
  rw [h1, ← List.map_map]
  rw [List.map_snd_zip _ _ (by simp only [List.length_zip]; omega)]
  exact List.map_snd_zip _ _ (by omega)

theorem mem_re_exists_entry (s : TextParser) (r : Nat)
    (lenM : s.next_marks_match.length = s.next_marks_revpos.length)
    (lenR : s.next_marks_re.length = s.next_marks_revpos.length)
    (hr : r ∈ s.next_marks_re) :
    ∃ rv mk, (rv, mk, r) ∈ entriesOf s := by
  rw [← entries_map_re s lenM lenR] at hr
  rcases List.mem_map.mp hr with ⟨⟨rv, mk, r2⟩, he, heq⟩
  simp only at heq
  subst heq
  exact ⟨rv, mk, he⟩

theorem entry_fst_mem (s : TextParser) (e : Int × Mark × Nat)
    (he : e ∈ entriesOf s) : e.1 ∈ s.next_marks_revpos := by
  unfold entriesOf at he
  rcases e with ⟨rv, q⟩
  exact (List.of_mem_zip he).1

theorem entry_re_mem (s : TextParser) (e : Int × Mark × Nat)
    (he : e ∈ entriesOf s) : e.2.2 ∈ s.next_marks_re := by
  unfold entriesOf at he
  rcases e with ⟨rv, mk, r⟩
  exact (List.of_mem_zip (List.of_mem_zip he).2).2

theorem sorted_le_getLastD (l : List Int) (hs : l.Sorted (· ≤ ·)) (x : Int)
    (hx : x ∈ l) : x ≤ l.getLastD 0 := by
  have hne : l ≠ [] := by rintro rfl; simp at hx
  have hdec := List.dropLast_append_getLast hne
  rw [← hdec] at hx hs
  rw [← hdec, List.getLastD_eq_getLast?, List.getLast?_concat]
  simp only [Option.getD_some]
  rcases List.mem_append.mp hx with h2 | h2
  · rw [List.Sorted, List.pairwise_append] at hs
    exact hs.2.2 x h2 _ (by simp)
  · simp only [List.mem_singleton] at h2
    omega

theorem entries_concat (s : TextParser)
    (lenM : s.next_marks_match.length = s.next_marks_revpos.length)
    (lenR : s.next_marks_re.length = s.next_marks_revpos.length)
    (hne : s.next_marks_revpos ≠ []) :
    ∃ a b c, s.next_marks_revpos = a ++ [s.next_marks_revpos.getLastD 0] ∧
      s.next_marks_match = b ++ [s.next_marks_match.getLastD ⟨0, 0⟩] ∧
      s.next_marks_re = c ++ [s.next_marks_re.getLastD 0] ∧
      a.length = b.length ∧ a.length = c.length ∧
      entriesOf s = (a.zip (b.zip c)) ++
        [(s.next_marks_revpos.getLastD 0, s.next_marks_match.getLastD ⟨0, 0⟩,
          s.next_marks_re.getLastD 0)] := by
  have hneM : s.next_marks_match ≠ [] := by
    intro hc
    rw [hc] at lenM
    exact hne (List.eq_nil_of_length_eq_zero (by simpa using lenM.symm))
  have hneR : s.next_marks_re ≠ [] := by
    intro hc
    rw [hc] at lenR
    exact hne (List.eq_nil_of_length_eq_zero (by simpa using lenR.symm))
  have d1 : s.next_marks_revpos =
      s.next_marks_revpos.dropLast ++ [s.next_marks_revpos.getLastD 0] := by
    rw [List.getLastD_eq_getLast?, List.getLast?_eq_getLast _ hne]
    simpa using (List.dropLast_append_getLast hne).symm
  have d2 : s.next_marks_match =
      s.next_marks_match.dropLast ++ [s.next_marks_match.getLastD ⟨0, 0⟩] := by
    rw [List.getLastD_eq_getLast?, List.getLast?_eq_getLast _ hneM]
    simpa using (List.dropLast_append_getLast hneM).symm
  have d3 : s.next_marks_re =
      s.next_marks_re.dropLast ++ [s.next_marks_re.getLastD 0] := by
    rw [List.getLastD_eq_getLast?, List.getLast?_eq_getLast _ hneR]
    simpa using (List.dropLast_append_getLast hneR).symm
  refine ⟨s.next_marks_revpos.dropLast, s.next_marks_match.dropLast,
    s.next_marks_re.dropLast, d1, d2, d3, ?_, ?_, ?_⟩
  · simp only [List.length_dropLast]
    omega
  · simp only [List.length_dropLast]
    omega
  · unfold entriesOf
    conv_lhs => rw [d1, d2, d3]
    rw [List.zip_append (by simp only [List.length_dropLast]; omega)]
    rw [List.zip_append (by
      simp only [List.length_dropLast, List.length_zip]
      omega)]
    rfl

/-! Characterization of the reference choice `refPick`. -/

theorem refPick_loop_none (σ : SearchEnv) (t : List Char) :
    ∀ (bs : List Nat) (acc : Option (Nat × Mark)),
      bs.foldl
        (fun acc r =>
          match σ r t with
          | none => acc
          | some m =>
              match acc with
              | none => some (r, m)
              | some q => if m.start < q.2.start then some (r, m) else acc)
        acc = none ↔ (acc = none ∧ ∀ r ∈ bs, σ r t = none) := by
  intro bs
  induction bs with
  | nil => intro acc; simp
  | cons r bs ih =>
      intro acc
      rw [List.foldl_cons, ih]
      cases hσ : σ r t with
      | none =>
          dsimp only
          simp only [List.mem_cons]
          constructor
          · rintro ⟨h1, h2⟩
            exact ⟨h1, fun r2 hr2 => by
              rcases hr2 with rfl | hr2
              · exact hσ
              · exact h2 r2 hr2⟩
          · rintro ⟨h1, h2⟩
            exact ⟨h1, fun r2 hr2 => h2 r2 (Or.inr hr2)⟩
      | some m =>
          dsimp only
          cases acc with
          | none =>
              dsimp only
              simp only [List.mem_cons]
              constructor
              · rintro ⟨h1, _⟩
                exact absurd h1 (by simp)
              · rintro ⟨_, h2⟩
                exact absurd (h2 r (Or.inl rfl)) (by simp [hσ])
          | some q =>
              dsimp only
              by_cases hlt : m.start < q.2.start
              · rw [if_pos hlt]
                simp only [List.mem_cons]
                constructor
                · rintro ⟨h1, _⟩
                  exact absurd h1 (by simp)
                · rintro ⟨h1, _⟩
                  exact absurd h1 (by simp)
              · rw [if_neg hlt]
                simp only [List.mem_cons]
                constructor
                · rintro ⟨h1, _⟩
                  exact absurd h1 (by simp)
                · rintro ⟨h1, _⟩
                  exact absurd h1 (by simp)

theorem refPick_none_iff (σ : SearchEnv) (bs : List Nat) (t : List Char) :
    refPick σ bs t = none ↔ ∀ r ∈ bs, σ r t = none := by
  unfold refPick
  rw [refPick_loop_none σ t bs none]
  simp

theorem refPick_loop_some (σ : SearchEnv) (t : List Char) :
    ∀ (bs : List Nat) (acc : Option (Nat × Mark)) (q : Nat × Mark),
      bs.foldl
        (fun acc r =>
          match σ r t with
          | none => acc
          | some m =>
              match acc with
              | none => some (r, m)
              | some q => if m.start < q.2.start then some (r, m) else acc)
        acc = some q →
      acc = some q ∨ (q.1 ∈ bs ∧ σ q.1 t = some q.2) := by
  intro bs
  induction bs with
  | nil => intro acc q h; exact Or.inl h
  | cons r bs ih =>
      intro acc q h
      rw [List.foldl_cons] at h
      rcases ih _ q h with h2 | h2
      · cases hσ : σ r t with
        | none =>
            rw [hσ] at h2
            exact Or.inl h2
        | some m =>
            rw [hσ] at h2
            dsimp only at h2
            cases acc with
            | none =>
                dsimp only at h2
                rcases Option.some.inj h2 with rfl
                exact Or.inr ⟨List.mem_cons_self r bs, hσ⟩
            | some p =>
                dsimp only at h2
                by_cases hlt : m.start < p.2.start
                · rw [if_pos hlt] at h2
                  rcases Option.some.inj h2 with rfl
                  exact Or.inr ⟨List.mem_cons_self r bs, hσ⟩
                · rw [if_neg hlt] at h2
                  exact Or.inl h2
      · exact Or.inr ⟨List.mem_cons_of_mem r h2.1, h2.2⟩

theorem refPick_some_mem (σ : SearchEnv) (bs : List Nat) (t : List Char)
    (q : Nat × Mark) (h : refPick σ bs t = some q) :
    q.1 ∈ bs ∧ σ q.1 t = some q.2 := by
  unfold refPick at h
  rcases refPick_loop_some σ t bs none q h with h2 | h2
  · exact absurd h2 (by simp)
  · exact h2

theorem refPick_loop_min (σ : SearchEnv) (t : List Char) :
    ∀ (bs : List Nat) (acc : Option (Nat × Mark)) (q : Nat × Mark),
      bs.foldl
        (fun acc r =>
          match σ r t with
          | none => acc
          | some m =>
              match acc with
              | none => some (r, m)
              | some q => if m.start < q.2.start then some (r, m) else acc)
        acc = some q →
      (∀ p, acc = some p → q.2.start ≤ p.2.start) ∧
        (∀ r ∈ bs, ∀ m, σ r t = some m → q.2.start ≤ m.start) := by
  intro bs
  induction bs with
  | nil =>
      intro acc q h
      simp only [List.foldl_nil] at h
      subst h
      exact ⟨fun p hp => by rcases Option.some.inj hp with rfl; omega,
        fun r hr => by simp at hr⟩
  | cons r bs ih =>
      intro acc q h
      rw [List.foldl_cons] at h
      rcases ih _ q h with ⟨hacc, hbs⟩
      cases hσ : σ r t with
      | none =>
          refine ⟨fun p hp => hacc p (by simp only [hσ]; exact hp),
            fun r2 hr2 m hm => ?_⟩
          rcases List.mem_cons.mp hr2 with rfl | hr2
          · rw [hσ] at hm
            exact absurd hm (by simp)
          · exact hbs r2 hr2 m hm
      | some m =>
          have hqm : q.2.start ≤ m.start := by
            cases acc with
            | none => exact hacc (r, m) (by simp only [hσ])
            | some p =>
                by_cases hlt : m.start < p.2.start
                · exact hacc (r, m) (by simp only [hσ]; rw [if_pos hlt])
                · have h2 := hacc p (by simp only [hσ]; rw [if_neg hlt])
                  omega
          refine ⟨fun p hp => ?_, fun r2 hr2 m2 hm2 => ?_⟩
          · subst hp
            by_cases hlt : m.start < p.2.start
            · have h2 := hacc (r, m) (by simp only [hσ]; rw [if_pos hlt])
              simp only at h2
              omega
            · exact hacc p (by simp only [hσ]; rw [if_neg hlt])
          · rcases List.mem_cons.mp hr2 with rfl | hr2
            · rw [hσ] at hm2
              rcases Option.some.inj hm2 with rfl
              exact hqm
            · exact hbs r2 hr2 m2 hm2

theorem refPick_min (σ : SearchEnv) (bs : List Nat) (t : List Char)
    (q : Nat × Mark) (h : refPick σ bs t = some q) :
    ∀ r ∈ bs, ∀ m, σ r t = some m → q.2.start ≤ m.start := by
  unfold refPick at h
  exact (refPick_loop_min σ t bs none q h).2

theorem refPick_isSome (σ : SearchEnv) (bs : List Nat) (t : List Char)
    (r : Nat) (m : Mark) (hr : r ∈ bs) (hm : σ r t = some m) :
    ∃ q, refPick σ bs t = some q := by
  cases hp : refPick σ bs t with
  | none =>
      have := (refPick_none_iff σ bs t).mp hp r hr
      rw [hm] at this
      exact absurd this (by simp)
  | some q => exact ⟨q, rfl⟩

/-! Unfolding equations for the fuel-indexed runs, and the reference-run
concatenation law. -/

theorem refRun_succ_none (σ : SearchEnv) (bs : List Nat) (n : Nat)
    (t : List Char) (h : refPick σ bs t = none) :
    refRun σ bs (n + 1) t = some [AbsEvent.done t] := by
  conv_lhs => rw [refRun]
  rw [h]

theorem refRun_succ_some (σ : SearchEnv) (bs : List Nat) (n : Nat)
    (t : List Char) (q : Nat × Mark) (h : refPick σ bs t = some q) :
    refRun σ bs (n + 1) t =
      (refRun σ bs n (t.drop q.2.stop)).map
        (fun evs =>
          AbsEvent.mark q.1 (t.take q.2.start) (q.2.stop - q.2.start) :: evs) := by
  conv_lhs => rw [refRun]
  rw [h]

theorem refOK_succ_none (σ : SearchEnv) (bs : List Nat) (n : Nat)
    (t : List Char) (h : refPick σ bs t = none) :
    refOK σ bs (n + 1) t = true := by
  conv_lhs => rw [refOK]
  rw [h]

theorem refOK_succ_some (σ : SearchEnv) (bs : List Nat) (n : Nat)
    (t : List Char) (q : Nat × Mark) (h : refPick σ bs t = some q) :
    refOK σ bs (n + 1) t =
      ((bs.all fun r =>
          r = q.1 ||
            match σ r t with
            | none => true
            | some m =>
                decide (m.start < q.2.start) || decide (q.2.stop ≤ m.start))
        && refOK σ bs n (t.drop q.2.stop)) := by
  conv_lhs => rw [refOK]
  rw [h]

theorem parseLoop_succ_nil (σ : SearchEnv) (π : HEnv) (n : Nat)
    (s : TextParser) (h : s.next_marks_revpos = []) :
    parseLoop σ π (n + 1) s = some (s, []) := by
  conv_lhs => rw [parseLoop]
  rw [if_pos h]

theorem parseLoop_succ_cons (σ : SearchEnv) (π : HEnv) (n : Nat)
    (s : TextParser) (h : ¬(s.next_marks_revpos = [])) :
    parseLoop σ π (n + 1) s =
      (parseLoop σ π n (parseIterate σ π s).1).map
        (fun q => (q.1, (parseIterate σ π s).2 :: q.2)) := by
  conv_lhs => rw [parseLoop]
  rw [if_neg h]

theorem refRun_fixpoint (σ : SearchEnv) (bs : List Nat) (t : List Char)
    (q : Nat × Mark) (h : refPick σ bs t = some q) (hstop : q.2.stop = 0) :
    ∀ n, refRun σ bs n t = none := by
  intro n
  induction n with
  | zero => rfl
  | succ n ih =>
      rw [refRun_succ_some σ bs n t q h]
      have hdrop : t.drop q.2.stop = t := by rw [hstop, List.drop_zero]
      rw [hdrop, ih]
      rfl

theorem take_splice (t : List Char) (s e : Nat) (hse : s ≤ e) :
    t.take s ++ (t.drop s).take (e - s) ++ t.drop e = t := by
  rw [List.take_drop]
  have h1 : s + (e - s) = e := by omega
  rw [h1]
  have h2 : t.take s = (t.take e).take s := by
    rw [List.take_take, Nat.min_eq_left hse]
  rw [h2, List.take_append_drop, List.take_append_drop]

theorem refRun_concat (σ : SearchEnv) (bs : List Nat) (hwf : SearchWF σ) :
    ∀ (fuel : Nat) (t : List Char) (evs : List AbsEvent),
      refRun σ bs fuel t = some evs →
      ∃ ms : List (List Char), ms.map List.length = mlens evs ∧
        interleaveParsed evs ms = t := by
  intro fuel
  induction fuel with
  | zero => intro t evs h; exact absurd h (by simp [refRun])
  | succ n ih =>
      intro t evs h
      cases hp : refPick σ bs t with
      | none =>
          rw [refRun_succ_none σ bs n t hp] at h
          rcases Option.some.inj h with rfl
          exact ⟨[], by simp [mlens], by simp [interleaveParsed]⟩
      | some q =>
          rw [refRun_succ_some σ bs n t q hp] at h
          rcases Option.map_eq_some'.mp h with ⟨evs2, hevs2, rfl⟩
          rcases ih (t.drop q.2.stop) evs2 hevs2 with ⟨ms, hms, hcat⟩
          rcases refPick_some_mem σ bs t q hp with ⟨_, hσq⟩
          rcases hwf q.1 t q.2 hσq with ⟨hse, hel⟩
          refine ⟨(t.drop q.2.start).take (q.2.stop - q.2.start) :: ms, ?_, ?_⟩
          · simp only [List.map_cons, hms, mlens]
            congr 1
            rw [List.length_take, List.length_drop]
            omega
          · simp only [interleaveParsed, hcat]
            exact take_splice t q.2.start q.2.stop hse

/-! The lock-step simulation between the embedded parser and the reference
process, for passive handlers. -/

theorem contains_iff_mem (l : List Nat) (a : Nat) :
    l.contains a = true ↔ a ∈ l :=
  List.elem_iff

theorem fire_passive (σ : SearchEnv) (π : HEnv)
    (hπ : ∀ h, π h = HandlerProg.pass) (s : TextParser) (regex : Nat) :
    fire σ π s regex = s := by
  unfold fire
  cases hg : get_handler s.handlers regex with
  | none => rfl
  | some h =>
      dsimp only
      rw [hπ h]
      rfl

theorem has_handlers_foldl_bind (B : Bindings) :
    ∀ (hs : Dispatcher) (r : Nat),
      has_handlers (B.foldl (fun hs p => bind_one hs p.1 p.2) hs) r =
        (has_handlers hs r || (B.map Prod.fst).contains r) := by
  induction B with
  | nil => intro hs r; simp [List.contains]
  | cons p B ih =>
      intro hs r
      rw [List.foldl_cons, ih, has_handlers_bind_one]
      rw [Bool.eq_iff_iff]
      simp only [Bool.or_eq_true, decide_eq_true_eq, List.map_cons,
        contains_iff_mem, List.mem_cons]
      constructor
      · rintro ((h | rfl) | h)
        · exact Or.inl h
        · exact Or.inr (Or.inl rfl)
        · exact Or.inr (Or.inr h)
      · rintro (h | (rfl | h))
        · exact Or.inl (Or.inl h)
        · exact Or.inl (Or.inr rfl)
        · exact Or.inr h

theorem pyInsert_zip3 (a : List α) (b : List β) (c : List γ) (i : Nat)
    (x : α) (y : β) (z : γ) (hab : a.length = b.length)
    (hac : a.length = c.length) (hi : i ≤ a.length) :
    (pyInsert a i x).zip ((pyInsert b i y).zip (pyInsert c i z)) =
      pyInsert (a.zip (b.zip c)) i (x, y, z) := by
  rw [pyInsert_zip b c i y z (by omega) (by omega)]
  rw [pyInsert_zip a (b.zip c) i x (y, z)
    (by simp only [List.length_zip]; omega) hi]

theorem sim_step (σ : SearchEnv) (bs : List Nat) (π : HEnv)
    (hπ : ∀ h, π h = HandlerProg.pass)
    (hwf : SearchWF σ) (hshift : ShiftCoherent σ) (hnone : NoneStable σ)
    (s : TextParser) (t : List Char) (hinv : SimInv σ bs s t)
    (q : Nat × Mark) (hq : refPick σ bs t = some q)
    (hok : (bs.all fun r =>
        r = q.1 ||
          match σ r t with
          | none => true
          | some m =>
              decide (m.start < q.2.start) || decide (q.2.stop ≤ m.start)) = true)
    (hne2 : q.2.start < q.2.stop) :
    s.next_marks_revpos ≠ [] ∧
    absEvent (parseIterate σ π s).2 =
      AbsEvent.mark q.1 (t.take q.2.start) (q.2.stop - q.2.start) ∧
    SimInv σ bs (parseIterate σ π s).1 (t.drop q.2.stop) := by
  obtain ⟨hqmem, hσq⟩ := refPick_some_mem σ bs t q hq
  obtain ⟨hq_se, hq_el⟩ := hwf q.1 t q.2 hσq
  have hq_in_re : q.1 ∈ s.next_marks_re := by
    by_contra hc
    have h2 := hinv.covered q.1 hqmem hc
    rw [hσq] at h2
    exact Option.noConfusion h2
  have hre_ne : s.next_marks_re ≠ [] := by
    intro hc
    rw [hc] at hq_in_re
    exact (List.not_mem_nil q.1) hq_in_re
  have hrv_ne : s.next_marks_revpos ≠ [] := by
    intro hc
    apply hre_ne
    apply List.eq_nil_of_length_eq_zero
    rw [hinv.lenR, hc]
    rfl
  obtain ⟨a, b, c, hd1, hd2, hd3, hab, hac, hent⟩ :=
    entries_concat s hinv.lenM hinv.lenR hrv_ne
  have hlast_mem : (s.next_marks_revpos.getLastD 0,
      s.next_marks_match.getLastD ⟨0, 0⟩, s.next_marks_re.getLastD 0)
      ∈ entriesOf s := by
    rw [hent]
    exact List.mem_append.mpr (Or.inr (by simp))
  obtain ⟨mL, hmL, hrv_eq, hmk_eq, hmL_se, hmL_el⟩ := hinv.val _ hlast_mem
  simp only at hmL hrv_eq hmk_eq
  obtain ⟨rv1, mk1, h1mem⟩ :=
    mem_re_exists_entry s q.1 hinv.lenM hinv.lenR hq_in_re
  obtain ⟨m1, hm1, hrv1_eq, _hmk1, _h1se, _h1el⟩ := hinv.val _ h1mem
  simp only at hm1 hrv1_eq
  have hm1q : m1 = q.2 := by
    rw [hσq] at hm1
    exact (Option.some.inj hm1).symm
  subst hm1q
  have hrv1_le : rv1 ≤ s.next_marks_revpos.getLastD 0 :=
    sorted_le_getLastD _ hinv.sorted rv1 (entry_fst_mem s _ h1mem)
  have hminL : q.2.start ≤ mL.start :=
    refPick_min σ bs t q hq _ (hinv.sub _ (entry_re_mem s _ hlast_mem)) mL hmL
  have hstart_eq : mL.start = q.2.start := by omega
  have hreL_eq : s.next_marks_re.getLastD 0 = q.1 := by
    by_contra hc
    have hall := List.all_eq_true.mp hok _
      (hinv.sub _ (entry_re_mem s _ hlast_mem))
    rw [hmL] at hall
    simp only [Bool.or_eq_true, decide_eq_true_eq] at hall
    rcases hall with hall | hall
    · exact hc hall
    · omega
  rw [hreL_eq] at hmL
  have hmLq : mL = q.2 := by
    rw [hσq] at hmL
    exact (Option.some.inj hmL).symm
  subst hmLq
  -- named values of the iteration
  have hrvL_val : s.next_marks_revpos.getLastD 0 = (t.length : Int) - q.2.start :=
    hrv_eq
  have hstart_lt_len : q.2.start < t.length := by omega
  refine ⟨hrv_ne, ?_, ?_⟩
  · -- the fired event
    unfold parseIterate
    dsimp only
    rw [hreL_eq]
    unfold absEvent
    have hneg : s.next_marks_revpos.getLastD 0 * (-1) < 0 := by omega
    rw [hinv.rem, pyTake_of_neg t _ hneg]
    have htk : t.length - (-(s.next_marks_revpos.getLastD 0 * (-1))).toNat =
        q.2.start := by omega
    rw [htk]
    dsimp only
    congr 1
    omega
  · -- the new state satisfies the invariant at the advanced remainder
    have hrem1 : (if s.next_marks_revpos.getLastD 0 * (-1) -
          ((s.next_marks_match.getLastD ⟨0, 0⟩).start : Int) +
          (s.next_marks_match.getLastD ⟨0, 0⟩).stop < 0 then
        pyDrop t (s.next_marks_revpos.getLastD 0 * (-1) -
          ((s.next_marks_match.getLastD ⟨0, 0⟩).start : Int) +
          (s.next_marks_match.getLastD ⟨0, 0⟩).stop)
      else []) = t.drop q.2.stop := by
      by_cases hcmp : s.next_marks_revpos.getLastD 0 * (-1) -
          ((s.next_marks_match.getLastD ⟨0, 0⟩).start : Int) +
          (s.next_marks_match.getLastD ⟨0, 0⟩).stop < 0
      · rw [if_pos hcmp, pyDrop_of_neg t _ hcmp]
        congr 1
        omega
      · rw [if_neg hcmp]
        symm
        rw [List.drop_eq_nil_iff]
        omega
    have hhh : has_handlers s.handlers (s.next_marks_re.getLastD 0) = true := by
      rw [hinv.disp, hreL_eq]
      exact (contains_iff_mem _ _).mpr hq_in_re
    have hstate : (parseIterate σ π s).1 =
        update_mark_position σ
          ⟨t.drop q.2.stop, s.handlers, s.parse_end_handler, false, a, b, c⟩
          q.1 := by
      unfold parseIterate
      dsimp only
      rw [fire_passive σ π hπ]
      rw [hinv.rem, hrem1, if_pos hhh, hreL_eq]
      congr 1
      unfold delLast
      dsimp only
      rw [hinv.nterm]
      rw [hd1, hd2, hd3]
      rw [List.dropLast_concat, List.dropLast_concat, List.dropLast_concat]
    rw [hstate]
    -- facts about the retained entries
    have hznodup : c.Nodup ∧ q.1 ∉ c := by
      have h2 := hinv.nodup
      rw [hd3, hreL_eq, List.nodup_append] at h2
      refine ⟨h2.1, fun hc => ?_⟩
      exact h2.2.2 hc (by simp)
    have hasorted : a.Sorted (· ≤ ·) := by
      have h2 := hinv.sorted
      rw [hd1] at h2
      exact List.Pairwise.sublist (List.sublist_append_left a _) h2
    have hsubc : ∀ r ∈ c, r ∈ bs := by
      intro r hr
      exact hinv.sub r (by rw [hd3]; exact List.mem_append.mpr (Or.inl hr))
    have hz_val : ∀ e ∈ a.zip (b.zip c),
        ∃ m, σ e.2.2 (t.drop q.2.stop) = some m ∧
          e.1 = ((t.drop q.2.stop).length : Int) - m.start ∧
          (e.2.1.stop : Int) - e.2.1.start = (m.stop : Int) - m.start ∧
          m.start ≤ m.stop ∧ m.stop ≤ (t.drop q.2.stop).length := by
      intro e he
      have hemem : e ∈ entriesOf s := by
        rw [hent]
        exact List.mem_append.mpr (Or.inl he)
      obtain ⟨me, hme, hrve, hmke, hese, heel⟩ := hinv.val e hemem
      have hec : e.2.2 ∈ c := by
        rcases e with ⟨rv, mk, r⟩
        exact (List.of_mem_zip (List.of_mem_zip he).2).2
      have hene : e.2.2 ≠ q.1 := fun hc => hznodup.2 (hc ▸ hec)
      have hcheck := List.all_eq_true.mp hok e.2.2
        (hinv.sub _ (entry_re_mem s e hemem))
      rw [hme] at hcheck
      simp only [Bool.or_eq_true, decide_eq_true_eq] at hcheck
      have hge : q.2.stop ≤ me.start := by
        rcases hcheck with h3 | h3 | h3
        · exact absurd h3 hene
        · have h4 := refPick_min σ bs t q hq e.2.2
            (hinv.sub _ (entry_re_mem s e hemem)) me hme
          omega
        · exact h3
      have hsh := hshift e.2.2 t me q.2.stop hme hge
      refine ⟨⟨me.start - q.2.stop, me.stop - q.2.stop⟩, hsh, ?_, ?_, ?_, ?_⟩
      · rw [List.length_drop]
        simp only
        omega
      · simp only
        omega
      · simp only
        omega
      · rw [List.length_drop]
        simp only
        omega
    have hcov0 : ∀ r ∈ bs, r ≠ q.1 → r ∉ c → σ r (t.drop q.2.stop) = none := by
      intro r hrbs hrq hrc
      have hrre : r ∉ s.next_marks_re := by
        rw [hd3, hreL_eq]
        intro hx
        rcases List.mem_append.mp hx with h3 | h3
        · exact hrc h3
        · simp only [List.mem_singleton] at h3
          exact hrq h3
      exact hnone r t q.2.stop (hinv.covered r hrbs hrre)
    have hdisp0 : ∀ r, has_handlers s.handlers r =
        (c ++ [q.1]).contains r := by
      intro r
      rw [hinv.disp]
      rw [hd3, hreL_eq]
    unfold update_mark_position
    dsimp only
    rw [if_neg (by simp)]
    unfold update_mark_position_continue
    dsimp only
    cases hσ2 : σ q.1 (t.drop q.2.stop) with
    | none =>
        dsimp only
        refine ⟨rfl, rfl, hab.symm, hac.symm, hasorted, hznodup.1, hsubc,
          ?_, ?_, ?_⟩
        · intro e he
          exact hz_val e he
        · intro r hrbs hrc
          rcases eq_or_ne r q.1 with rfl | hrq
          · exact hσ2
          · exact hcov0 r hrbs hrq hrc
        · intro r
          rw [has_handlers_unbind_all, hdisp0 r]
          rw [Bool.eq_iff_iff]
          simp only [Bool.and_eq_true, Bool.not_eq_eq_eq_not, Bool.not_true,
            decide_eq_false_iff_not, contains_iff_mem, List.mem_append,
            List.mem_singleton]
          constructor
          · rintro ⟨h3 | h3, h4⟩
            · exact h3
            · exact absurd h3 h4
          · intro h3
            exact ⟨Or.inl h3, fun hc => hznodup.2 (hc ▸ h3)⟩
    | some m2 =>
        dsimp only
        obtain ⟨hm2se, hm2el⟩ := hwf q.1 (t.drop q.2.stop) m2 hσ2
        refine ⟨rfl, rfl, ?_, ?_, ?_, ?_, ?_, ?_, ?_, ?_⟩
        · rw [length_pyInsert, length_pyInsert]
          omega
        · rw [length_pyInsert, length_pyInsert]
          omega
        · exact sorted_pyInsert_bisect a _ hasorted
        · exact nodup_pyInsert c _ q.1 hznodup.2 hznodup.1
        · intro r hr
          rcases (mem_pyInsert c _ q.1 r).mp hr with rfl | hr2
          · exact hqmem
          · exact hsubc r hr2
        · intro e he
          unfold entriesOf at he
          dsimp only at he
          rw [pyInsert_zip3 a b c _ _ _ _ hab hac
            (bisect_left_le_length a _)] at he
          rcases (mem_pyInsert _ _ _ e).mp he with rfl | he3
          · exact ⟨m2, hσ2, rfl, rfl, hm2se, hm2el⟩
          · exact hz_val e he3
        · intro r hrbs hrc
          rcases eq_or_ne r q.1 with rfl | hrq
          · exact absurd ((mem_pyInsert c _ q.1 q.1).mpr (Or.inl rfl)) hrc
          · refine hcov0 r hrbs hrq (fun hc => ?_)
            exact hrc ((mem_pyInsert c _ q.1 r).mpr (Or.inr hc))
        · intro r
          rw [hdisp0 r, Bool.eq_iff_iff]
          simp only [contains_iff_mem, List.mem_append, List.mem_singleton,
            mem_pyInsert]
          constructor
          · rintro (h3 | h3)
            · exact Or.inr h3
            · exact Or.inl h3
          · rintro (h3 | h3)
            · exact Or.inr h3
            · exact Or.inl h3

theorem sim_main (σ : SearchEnv) (bs : List Nat) (π : HEnv)
    (hπ : ∀ h, π h = HandlerProg.pass)
    (hwf : SearchWF σ) (hshift : ShiftCoherent σ) (hnone : NoneStable σ) :
    ∀ (fuel : Nat) (t : List Char) (s : TextParser) (evs : List AbsEvent),
      SimInv σ bs s t → refOK σ bs fuel t = true →
      refRun σ bs fuel t = some evs →
      ∃ s2 tr, parseLoop σ π fuel s = some (s2, tr) ∧
        tr.map absEvent ++ [AbsEvent.done s2.remainder_text] = evs := by
  intro fuel
  induction fuel with
  | zero =>
      intro t s evs _ _ h
      exact absurd h (by simp [refRun])
  | succ n ih =>
      intro t s evs hinv hok href
      cases hq : refPick σ bs t with
      | none =>
          rw [refRun_succ_none σ bs n t hq] at href
          rcases Option.some.inj href with rfl
          have hrv_nil : s.next_marks_revpos = [] := by
            by_contra hc
            obtain ⟨a2, b2, c2, _, _, _, _, _, hent⟩ :=
              entries_concat s hinv.lenM hinv.lenR hc
            have hlm : (s.next_marks_revpos.getLastD 0,
                s.next_marks_match.getLastD ⟨0, 0⟩,
                s.next_marks_re.getLastD 0) ∈ entriesOf s := by
              rw [hent]
              exact List.mem_append.mpr (Or.inr (by simp))
            obtain ⟨m, hm, _, _, _, _⟩ := hinv.val _ hlm
            have h2 := (refPick_none_iff σ bs t).mp hq _
              (hinv.sub _ (entry_re_mem s _ hlm))
            simp only at hm
            rw [hm] at h2
            exact Option.noConfusion h2
          refine ⟨s, [], parseLoop_succ_nil σ π n s hrv_nil, ?_⟩
          simp [hinv.rem]
      | some q =>
          rw [refRun_succ_some σ bs n t q hq] at href
          rcases Option.map_eq_some'.mp href with ⟨evs2, hevs2, rfl⟩
          rw [refOK_succ_some σ bs n t q hq] at hok
          rcases Bool.and_eq_true_iff.mp hok with ⟨hok1, hok2⟩
          obtain ⟨hqmem, hσq⟩ := refPick_some_mem σ bs t q hq
          obtain ⟨hq_se, hq_el⟩ := hwf q.1 t q.2 hσq
          rcases Nat.lt_or_ge q.2.start q.2.stop with hne2 | hstop
          · obtain ⟨hne, hev, hinv2⟩ :=
              sim_step σ bs π hπ hwf hshift hnone s t hinv q hq hok1 hne2
            obtain ⟨s2, tr, hloop, htr⟩ := ih _ _ _ hinv2 hok2 hevs2
            refine ⟨s2, (parseIterate σ π s).2 :: tr, ?_, ?_⟩
            · rw [parseLoop_succ_cons σ π n s hne, hloop]
              rfl
            · simp only [List.map_cons, hev, List.cons_append]
              rw [htr]
          · exfalso
            have hsh := hshift q.1 t q.2 q.2.stop hσq (by omega)
            have hzz : σ q.1 (t.drop q.2.stop) = some ⟨0, 0⟩ := by
              rw [hsh]
              congr 1
              simp only [Mark.mk.injEq]
              constructor
              · omega
              · omega
            cases n with
            | zero => exact absurd hevs2 (by simp [refRun])
            | succ n2 =>
                obtain ⟨q2, hq2⟩ :=
                  refPick_isSome σ bs (t.drop q.2.stop) q.1 ⟨0, 0⟩ hqmem hzz
                obtain ⟨hq2mem, hσq2⟩ :=
                  refPick_some_mem σ bs (t.drop q.2.stop) q2 hq2
                have hmin2 := refPick_min σ bs (t.drop q.2.stop) q2 hq2 q.1
                  hqmem ⟨0, 0⟩ hzz
                have hq2start : q2.2.start = 0 := by
                  have h3 : q2.2.start ≤ 0 := hmin2
                  omega
                by_cases hq2stop : q2.2.stop = 0
                · have h3 := refRun_fixpoint σ bs (t.drop q.2.stop) q2 hq2
                    hq2stop (n2 + 1)
                  rw [h3] at hevs2
                  exact Option.noConfusion hevs2
                · have hq1ne : q.1 ≠ q2.1 := by
                    intro hc
                    rw [← hc] at hσq2
                    rw [hzz] at hσq2
                    rcases Option.some.inj hσq2 with h4
                    rw [← h4] at hq2stop
                    exact hq2stop rfl
                  rw [refOK_succ_some σ bs n2 _ q2 hq2] at hok2
                  rcases Bool.and_eq_true_iff.mp hok2 with ⟨hokh, _⟩
                  have hch := List.all_eq_true.mp hokh q.1 hqmem
                  rw [hzz] at hch
                  simp only [Bool.or_eq_true, decide_eq_true_eq] at hch
                  rcases hch with h4 | h4 | h4
                  · exact hq1ne h4
                  · omega
                  · omega

theorem update_mark_position_not_term (σ : SearchEnv) (s : TextParser)
    (regex : Nat) (h : s.terminated = false) :
    update_mark_position σ s regex =
      update_mark_position_continue σ s regex := by
  unfold update_mark_position
  rw [h]
  simp

theorem update_continue_none (σ : SearchEnv) (s : TextParser) (regex : Nat)
    (h : σ regex s.remainder_text = none) :
    update_mark_position_continue σ s regex =
      { s with handlers := unbind_all s.handlers regex } := by
  unfold update_mark_position_continue
  rw [h]

theorem update_continue_some (σ : SearchEnv) (s : TextParser) (regex : Nat)
    (m : Mark) (h : σ regex s.remainder_text = some m) :
    update_mark_position_continue σ s regex =
      { s with
        next_marks_revpos := pyInsert s.next_marks_revpos
          (bisect_left s.next_marks_revpos
            ((s.remainder_text.length : Int) - m.start))
          ((s.remainder_text.length : Int) - m.start)
        next_marks_match := pyInsert s.next_marks_match
          (bisect_left s.next_marks_revpos
            ((s.remainder_text.length : Int) - m.start)) m
        next_marks_re := pyInsert s.next_marks_re
          (bisect_left s.next_marks_revpos
            ((s.remainder_text.length : Int) - m.start)) regex } := by
  unfold update_mark_position_continue
  rw [h]

theorem update_fold_inv (σ : SearchEnv) (bs : List Nat) (hwf : SearchWF σ) :
    ∀ (ks : List Nat) (u : TextParser) (t : List Char),
      u.remainder_text = t → u.terminated = false →
      u.next_marks_match.length = u.next_marks_revpos.length →
      u.next_marks_re.length = u.next_marks_revpos.length →
      u.next_marks_revpos.Sorted (· ≤ ·) →
      u.next_marks_re.Nodup →
      (∀ r ∈ u.next_marks_re, r ∈ bs) →
      (∀ e ∈ entriesOf u, ∃ m, σ e.2.2 t = some m ∧
        e.1 = (t.length : Int) - m.start ∧
        (e.2.1.stop : Int) - e.2.1.start = (m.stop : Int) - m.start ∧
        m.start ≤ m.stop ∧ m.stop ≤ t.length) →
      (∀ r ∈ bs, r ∉ ks → r ∉ u.next_marks_re → σ r t = none) →
      (∀ r, has_handlers u.handlers r =
        (u.next_marks_re.contains r || ks.contains r)) →
      ks.Nodup → (∀ r ∈ ks, r ∈ bs) → (∀ r ∈ ks, r ∉ u.next_marks_re) →
      SimInv σ bs (ks.foldl (fun st r => update_mark_position σ st r) u) t := by
  intro ks
  induction ks with
  | nil =>
      intro u t hrem hterm hlenM hlenR hsort hnd hsub hval hcov hdisp _ _ _
      rw [List.foldl_nil]
      refine ⟨hrem, hterm, hlenM, hlenR, hsort, hnd, hsub, hval, ?_, ?_⟩
      · intro r hrbs hrre
        exact hcov r hrbs (List.not_mem_nil r) hrre
      · intro r
        rw [hdisp r]
        have h2 : ([] : List Nat).contains r = false := rfl
        rw [h2, Bool.or_false]
  | cons k ks ih =>
      intro u t hrem hterm hlenM hlenR hsort hnd hsub hval hcov hdisp hknd
        hkbs hkre
      rw [List.foldl_cons]
      have hknd2 := List.nodup_cons.mp hknd
      have hkink : k ∉ u.next_marks_re := hkre k (List.mem_cons_self k ks)
      rw [update_mark_position_not_term σ u k hterm]
      cases hσk : σ k t with
      | none =>
          rw [update_continue_none σ u k (by rw [hrem]; exact hσk)]
          refine ih { u with handlers := unbind_all u.handlers k } t hrem
            hterm hlenM hlenR hsort hnd hsub hval ?_ ?_ hknd2.2 ?_ ?_
          · intro r hrbs hrks hrre
            rcases eq_or_ne r k with rfl | hrk
            · exact hσk
            · exact hcov r hrbs (by simp [hrk, hrks]) hrre
          · intro r
            show has_handlers (unbind_all u.handlers k) r = _
            rw [has_handlers_unbind_all, hdisp r, Bool.eq_iff_iff]
            simp only [Bool.and_eq_true, Bool.or_eq_true,
              Bool.not_eq_eq_eq_not, Bool.not_true, decide_eq_false_iff_not,
              contains_iff_mem, List.mem_cons]
            constructor
            · rintro ⟨h3 | h3 | h3, h4⟩
              · exact Or.inl h3
              · exact absurd h3 h4
              · exact Or.inr h3
            · rintro (h3 | h3)
              · exact ⟨Or.inl h3, fun hc => hkink (hc ▸ h3)⟩
              · exact ⟨Or.inr (Or.inr h3), fun hc => hknd2.1 (hc ▸ h3)⟩
          · intro r hr
            exact hkbs r (List.mem_cons_of_mem k hr)
          · intro r hr
            exact hkre r (List.mem_cons_of_mem k hr)
      | some m =>
          rw [update_continue_some σ u k m (by rw [hrem]; exact hσk)]
          obtain ⟨hmse, hmel⟩ := hwf k t m hσk
          refine ih _ t hrem hterm ?_ ?_ ?_ ?_ ?_ ?_ ?_ ?_ hknd2.2 ?_ ?_
          · dsimp only
            rw [length_pyInsert, length_pyInsert]
            omega
          · dsimp only
            rw [length_pyInsert, length_pyInsert]
            omega
          · exact sorted_pyInsert_bisect _ _ hsort
          · exact nodup_pyInsert _ _ k hkink hnd
          · intro r hr
            dsimp only at hr
            rcases (mem_pyInsert _ _ _ r).mp hr with rfl | hr2
            · exact hkbs _ (List.mem_cons_self _ _)
            · exact hsub r hr2
          · intro e he
            unfold entriesOf at he
            dsimp only at he
            rw [pyInsert_zip3 _ _ _ _ _ _ _ (by omega) (by omega)
              (bisect_left_le_length _ _)] at he
            rcases (mem_pyInsert _ _ _ e).mp he with rfl | he2
            · exact ⟨m, hσk, by rw [hrem], rfl, hmse, hmel⟩
            · exact hval e he2
          · intro r hrbs hrks hrre
            dsimp only at hrre
            rcases eq_or_ne r k with rfl | hrk
            · exact absurd ((mem_pyInsert _ _ _ r).mpr (Or.inl rfl)) hrre
            · refine hcov r hrbs (by simp [hrk, hrks]) (fun hc => ?_)
              exact hrre ((mem_pyInsert _ _ _ r).mpr (Or.inr hc))
          · intro r
            dsimp only
            rw [hdisp r, Bool.eq_iff_iff]
            simp only [Bool.or_eq_true, contains_iff_mem, List.mem_cons,
              mem_pyInsert]
            constructor
            · rintro (h3 | h3 | h3)
              · exact Or.inl (Or.inr h3)
              · exact Or.inl (Or.inl h3)
              · exact Or.inr h3
            · rintro ((h3 | h3) | h3)
              · exact Or.inr (Or.inl h3)
              · exact Or.inl h3
              · exact Or.inr (Or.inr h3)
          · intro r hr
            exact hkbs r (List.mem_cons_of_mem k hr)
          · intro r hr
            dsimp only
            intro hc
            rcases (mem_pyInsert _ _ _ r).mp hc with rfl | hc2
            · exact hknd2.1 hr
            · exact hkre r (List.mem_cons_of_mem k hr) hc2

theorem reset_init_sim (σ : SearchEnv) (text : List Char) (B : Bindings)
    (hwf : SearchWF σ) (hnd : (B.map Prod.fst).Nodup) :
    SimInv σ (B.map Prod.fst)
      (reset_bindings σ (initTextParser text) B) text := by
  unfold reset_bindings initTextParser
  dsimp only
  have hnewb : (B.map Prod.fst).filter
      (fun r => ¬(([] : List Nat).contains r)) = B.map Prod.fst := by
    apply List.filter_eq_self.mpr
    intro r _
    simp [List.contains]
  have hdelb : ([] : List Nat).filter
      (fun r => ¬((B.map Prod.fst).contains r)) = [] := rfl
  rw [hnewb, hdelb, List.foldl_nil]
  apply update_fold_inv σ (B.map Prod.fst) hwf (B.map Prod.fst) _ text rfl rfl
    rfl rfl (by simp) List.nodup_nil (by simp) (by simp [entriesOf])
    (by intro r hr hnks; exact absurd hr hnks)
    ?_ hnd (fun r hr => hr) (by simp)
  intro r
  rw [has_handlers_foldl_bind B [] r]
  rfl

theorem parse_of_parseLoop (σ : SearchEnv) (π : HEnv) (fuel : Nat)
    (s s2 : TextParser) (tr : List Event) (hπ : ∀ h, π h = HandlerProg.pass)
    (h : parseLoop σ π fuel s = some (s2, tr)) :
    parse σ π fuel s =
      some (s2, tr ++ [Event.parseEnd s2.parse_end_handler s2.remainder_text],
        s2.remainder_text) := by
  unfold parse
  rw [h]
  cases hpe : s2.parse_end_handler with
  | none =>
      simp only [Option.map_some']
      rw [hpe]
  | some h2 =>
      simp only [Option.map_some']
      rw [hpe]
      dsimp only
      rw [hπ h2]
      rfl

/-- Claim C1, amended.  For passive handlers and a well-formed,
shift-coherent, failure-stable search capability, if along the reference
run no pattern's current match starts anywhere in the half-open span
`[start, stop)` of a consumed match of another pattern, then the sequence
of matches delivered by `parse` (pattern, processed text and match length
of each firing, plus the final leftover) is exactly the reference sequence
obtained by repeatedly taking the leftmost match among the bound patterns
over the current remainder; and each loop iteration extracts the entry
with the largest `distance_from_end` (the last entry of the ascending
`next_marks_revpos` list).  The claim as frozen (with *strictly inside*
spans, i.e. allowing ties on the start offset with a nonempty consumed
match) is refuted by `C1_counterexample`. -/
theorem C1_leftmost_match_schedule (σ : SearchEnv) (π : HEnv) (B : Bindings)
    (fuel : Nat) (text : List Char) (evs : List AbsEvent)
    (hwf : SearchWF σ) (hshift : ShiftCoherent σ) (hnone : NoneStable σ)
    (hπ : ∀ h, π h = HandlerProg.pass)
    (hnd : (B.map Prod.fst).Nodup)
    (hok : refOK σ (B.map Prod.fst) fuel text = true)
    (href : refRun σ (B.map Prod.fst) fuel text = some evs) :
    (∃ s2 tr left,
      parse σ π fuel (reset_bindings σ (initTextParser text) B) =
        some (s2, tr, left) ∧ tr.map absEvent = evs) ∧
    (∀ s : TextParser, s.next_marks_revpos.Sorted (· ≤ ·) →
      ∀ x ∈ s.next_marks_revpos, x ≤ s.next_marks_revpos.getLastD 0) := by
  constructor
  · obtain ⟨s2, tr, hloop, htr⟩ := sim_main σ (B.map Prod.fst) π hπ hwf
      hshift hnone fuel text _ evs (reset_init_sim σ text B hwf hnd) hok href
    refine ⟨s2, tr ++ [Event.parseEnd s2.parse_end_handler
      s2.remainder_text], s2.remainder_text,
      parse_of_parseLoop σ π fuel _ s2 tr hπ hloop, ?_⟩
    rw [List.map_append, ← htr]
    rfl
  · intro s hs x hx
    exact sorted_le_getLastD _ hs x hx

/-- Witness for `C1_leftmost_match_schedule`: the spec's own scenario, text
`aXbXc` with the literal pattern `X`, run concretely. -/
theorem C1_leftmost_match_schedule_witness :
    (∃ s2 tr left,
      parse sEnvX passiveEnv 10
          (reset_bindings sEnvX (initTextParser "aXbXc".toList) [(0, 10)]) =
        some (s2, tr, left) ∧
      tr.map absEvent =
        [AbsEvent.mark 0 "a".toList 1, AbsEvent.mark 0 "b".toList 1,
          AbsEvent.done "c".toList]) ∧
    (∀ s : TextParser, s.next_marks_revpos.Sorted (· ≤ ·) →
      ∀ x ∈ s.next_marks_revpos, x ≤ s.next_marks_revpos.getLastD 0) :=
  C1_leftmost_match_schedule sEnvX passiveEnv [(0, 10)] 10 "aXbXc".toList
    [AbsEvent.mark 0 "a".toList 1, AbsEvent.mark 0 "b".toList 1,
      AbsEvent.done "c".toList]
    (litEnv_wf _) (litEnv_shift _) (litEnv_none _) (fun _ => rfl)
    (by decide) (by decide) (by decide)

/-- Counterexample to claim C1 as frozen: patterns `ab` (bound first) and
`a` over text `ab` tie at offset 0, which the claim's hypothesis (no match
starting *strictly inside* an earlier-consumed span) permits; the code
fires the stale cached entry of `a` after `ab` consumed the whole text,
while the reference process stops after the single `ab` firing. -/
theorem C1_counterexample :
    refOKstrict sEnvAbA [0, 1] 5 "ab".toList = true ∧
    refRun sEnvAbA [0, 1] 5 "ab".toList =
      some [AbsEvent.mark 0 [] 2, AbsEvent.done []] ∧
    (parse sEnvAbA passiveEnv 5 stateAb).map (fun q => q.2.1.map absEvent) =
      some [AbsEvent.mark 0 [] 2, AbsEvent.mark 1 [] 1, AbsEvent.done []] ∧
    ([AbsEvent.mark 0 [] 2, AbsEvent.mark 1 [] 1, AbsEvent.done []] ≠
      [AbsEvent.mark 0 [] 2, AbsEvent.done []]) := by
  refine ⟨by decide, by decide, by decide, by decide⟩

/-- Claim C2, amended.  The concatenation law holds only after interposing
the text consumed by each match: under the hypotheses of the amended C1
(passive handlers, coherent search, non-overlapping-in-effect patterns),
there are matched segments, one per firing and of exactly the fired match's
length, such that processed₁ ++ matched₁ ++ processed₂ ++ matched₂ ++ ⋯ ++
leftover equals the input text at the time scanning began.  The law as
frozen (processed fields plus leftover alone) is refuted by
`C2_counterexample`. -/
theorem C2_concatenation_law (σ : SearchEnv) (π : HEnv) (B : Bindings)
    (fuel : Nat) (text : List Char) (evs : List AbsEvent)
    (hwf : SearchWF σ) (hshift : ShiftCoherent σ) (hnone : NoneStable σ)
    (hπ : ∀ h, π h = HandlerProg.pass)
    (hnd : (B.map Prod.fst).Nodup)
    (hok : refOK σ (B.map Prod.fst) fuel text = true)
    (href : refRun σ (B.map Prod.fst) fuel text = some evs) :
    ∃ s2 tr left,
      parse σ π fuel (reset_bindings σ (initTextParser text) B) =
        some (s2, tr, left) ∧
      ∃ ms : List (List Char), ms.map List.length = mlens (tr.map absEvent) ∧
        interleaveParsed (tr.map absEvent) ms = text := by
  obtain ⟨s2, tr, hloop, htr⟩ := sim_main σ (B.map Prod.fst) π hπ hwf
    hshift hnone fuel text _ evs (reset_init_sim σ text B hwf hnd) hok href
  have hta : ((tr ++ [Event.parseEnd s2.parse_end_handler
      s2.remainder_text]).map absEvent) = evs := by
    rw [List.map_append, ← htr]
    rfl
  obtain ⟨ms, hms, hint⟩ := refRun_concat σ (B.map Prod.fst) hwf fuel text
    evs href
  exact ⟨s2, _, s2.remainder_text,
    parse_of_parseLoop σ π fuel _ s2 tr hπ hloop,
    ms, by rw [hta, hms], by rw [hta, hint]⟩

/-- Witness for `C2_concatenation_law` on the spec's scenario `aXbXc`. -/
theorem C2_concatenation_law_witness :
    ∃ s2 tr left,
      parse sEnvX passiveEnv 10
          (reset_bindings sEnvX (initTextParser "aXbXc".toList) [(0, 10)]) =
        some (s2, tr, left) ∧
      ∃ ms : List (List Char), ms.map List.length = mlens (tr.map absEvent) ∧
        interleaveParsed (tr.map absEvent) ms = "aXbXc".toList :=
  C2_concatenation_law sEnvX passiveEnv [(0, 10)] 10 "aXbXc".toList
    [AbsEvent.mark 0 "a".toList 1, AbsEvent.mark 0 "b".toList 1,
      AbsEvent.done "c".toList]
    (litEnv_wf _) (litEnv_shift _) (litEnv_none _) (fun _ => rfl)
    (by decide) (by decide) (by decide)

/-- Counterexample to claim C2 as frozen: over text `aXbXc` with pattern
`X`, the processed fields concatenate to `ab` and the leftover is `c`, so
processed fields plus leftover give `abc`, not the original `aXbXc` — the
consumed match texts are missing. -/
theorem C2_counterexample :
    (parse sEnvX passiveEnv 10 stateAXbXc).map
        (fun q => parsedConcat (q.2.1.map absEvent) ++ q.2.2) =
      some "abc".toList ∧
    "abc".toList ≠ "aXbXc".toList :=
  ⟨by decide, by decide⟩

/-- Claim C9: when no bound pattern has a pending match (empty
`next_marks_revpos`, covering empty input, an empty binding set, or
patterns that match nowhere), `parse` fires no `MarkEvent`, fires exactly
one terminal `ParseEndEvent` carrying the unconsumed text unchanged, and
returns that same text. -/
theorem C9_no_match_terminal (σ : SearchEnv) (π : HEnv) (fuel : Nat)
    (s : TextParser) (h : s.next_marks_revpos = [])
    (hpe : ∀ h2, s.parse_end_handler = some h2 → π h2 = HandlerProg.pass) :
    parse σ π (fuel + 1) s =
      some (s, [Event.parseEnd s.parse_end_handler s.remainder_text],
        s.remainder_text) := by
  unfold parse
  rw [parseLoop_succ_nil σ π fuel s h]
  cases hpe2 : s.parse_end_handler with
  | none =>
      simp only [Option.map_some']
      rw [hpe2]
      rfl
  | some h2 =>
      simp only [Option.map_some']
      rw [hpe2]
      dsimp only
      rw [hpe h2 hpe2]
      rfl

/-- Witness for `C9_no_match_terminal`: text `foo` with only the literal
pattern `bar` bound. -/
theorem C9_no_match_terminal_witness :
    parse sEnvFoo passiveEnv 5 stateFoo =
      some (stateFoo,
        [Event.parseEnd stateFoo.parse_end_handler stateFoo.remainder_text],
        stateFoo.remainder_text) :=
  C9_no_match_terminal sEnvFoo passiveEnv 4 stateFoo (by decide)
    (fun _ _ => rfl)

theorem update_mark_position_remainder (σ : SearchEnv) (x : TextParser)
    (r : Nat) :
    (update_mark_position σ x r).remainder_text = x.remainder_text := by
  unfold update_mark_position update_mark_position_terminate
    update_mark_position_continue
  by_cases h : x.terminated = true
  · rw [if_pos h]
  · rw [if_neg h]
    cases σ r x.remainder_text <;> rfl

theorem parseIterate_remainder (σ : SearchEnv) (π : HEnv) (s : TextParser)
    (hπ : ∀ h, π h = HandlerProg.pass) :
    (parseIterate σ π s).1.remainder_text =
      (if s.next_marks_revpos.getLastD 0 * (-1) -
          ((s.next_marks_match.getLastD ⟨0, 0⟩).start : Int) +
          (s.next_marks_match.getLastD ⟨0, 0⟩).stop < 0 then
        pyDrop s.remainder_text (s.next_marks_revpos.getLastD 0 * (-1) -
          ((s.next_marks_match.getLastD ⟨0, 0⟩).start : Int) +
          (s.next_marks_match.getLastD ⟨0, 0⟩).stop)
      else []) := by
  unfold parseIterate
  dsimp only
  rw [fire_passive σ π hπ]
  by_cases hh : has_handlers s.handlers (s.next_marks_re.getLastD 0) = true
  · rw [if_pos hh, update_mark_position_remainder]
    rfl
  · rw [if_neg hh]

/-- Claim C5: for the consumed entry (the last of the three parallel
lists), the drain loop recovers `startpos = -distance_from_end` and
`endpos = startpos - match.start + match.end`, delivers
`processed = remainder[:startpos]` and sets the new remainder to
`remainder[endpos:]` when `endpos < 0` and to the empty string otherwise.
For a valid entry (`0 < distance ≤ len(remainder)`, `start ≤ end`) this is
exactly: processed is the remainder up to the match start
(`take (len − distance)`) and the new remainder is the remainder past the
match end (`drop (len − distance + matchlength)`, empty when that reaches
the end). -/
theorem C5_slice_arithmetic (σ : SearchEnv) (π : HEnv) (s : TextParser)
    (hπ : ∀ h, π h = HandlerProg.pass) (rv : Int) (mk : Mark)
    (hrv : s.next_marks_revpos.getLastD 0 = rv)
    (hmk : s.next_marks_match.getLastD ⟨0, 0⟩ = mk)
    (hrv_pos : 0 < rv) (hrv_le : rv ≤ s.remainder_text.length)
    (hmm : mk.start ≤ mk.stop) :
    (parseIterate σ π s).2 =
      Event.mark (s.next_marks_re.getLastD 0)
        (get_handler s.handlers (s.next_marks_re.getLastD 0)) mk
        (s.remainder_text.take (s.remainder_text.length - rv.toNat)) ∧
    (parseIterate σ π s).1.remainder_text =
      s.remainder_text.drop
        (s.remainder_text.length - rv.toNat + (mk.stop - mk.start)) := by
  constructor
  · unfold parseIterate
    dsimp only
    rw [hrv, hmk]
    have hneg : rv * (-1) < 0 := by omega
    rw [pyTake_of_neg _ _ hneg]
    have h2 : (-(rv * (-1))).toNat = rv.toNat := by omega
    rw [h2]
  · rw [parseIterate_remainder σ π s hπ, hrv, hmk]
    by_cases hcmp : rv * (-1) - (mk.start : Int) + mk.stop < 0
    · rw [if_pos hcmp, pyDrop_of_neg _ _ hcmp]
      congr 1
      omega
    · rw [if_neg hcmp]
      symm
      rw [List.drop_eq_nil_iff]
      omega

/-- Witness for `C5_slice_arithmetic`: the first iteration over `aXbXc`
with the literal pattern `X` (entry distance 4, match `(1,2)`): processed
is `a` and the new remainder is `bXc`. -/
theorem C5_slice_arithmetic_witness :
    (parseIterate sEnvX passiveEnv stateAXbXc).2 =
      Event.mark (stateAXbXc.next_marks_re.getLastD 0)
        (get_handler stateAXbXc.handlers
          (stateAXbXc.next_marks_re.getLastD 0)) ⟨1, 2⟩
        (stateAXbXc.remainder_text.take
          (stateAXbXc.remainder_text.length - (4 : Int).toNat)) ∧
    (parseIterate sEnvX passiveEnv stateAXbXc).1.remainder_text =
      stateAXbXc.remainder_text.drop
        (stateAXbXc.remainder_text.length - (4 : Int).toNat + (2 - 1)) :=
  C5_slice_arithmetic sEnvX passiveEnv stateAXbXc (fun _ => rfl) 4 ⟨1, 2⟩
    (by decide) (by decide) (by decide) (by decide) (by decide)

/-- Claim C3: equal `distance_from_end` means equal match start, and
`bisect_left` insertion places a newly inserted entry before every
pre-existing entry of equal distance (everything before the insertion
point is strictly smaller, everything from it on is at least the new
value), so extraction from the largest-distance end consumes pre-existing
equal entries first; concretely, over `xaby` with `a` bound before `ab`
(both matching at offset 1), the earlier-bound pattern fires first. -/
theorem C3_tie_break (σ : SearchEnv) (s : TextParser) (regex : Nat)
    (m : Mark) (hσ : σ regex s.remainder_text = some m)
    (hs : s.next_marks_revpos.Sorted (· ≤ ·)) :
    ((update_mark_position_continue σ s regex).next_marks_revpos =
        pyInsert s.next_marks_revpos
          (bisect_left s.next_marks_revpos
            ((s.remainder_text.length : Int) - m.start))
          ((s.remainder_text.length : Int) - m.start) ∧
      (∀ y ∈ s.next_marks_revpos.take (bisect_left s.next_marks_revpos
          ((s.remainder_text.length : Int) - m.start)),
        y < (s.remainder_text.length : Int) - m.start) ∧
      (∀ y ∈ s.next_marks_revpos.drop (bisect_left s.next_marks_revpos
          ((s.remainder_text.length : Int) - m.start)),
        (s.remainder_text.length : Int) - m.start ≤ y)) ∧
    (parse sEnvTie passiveEnv 10 stateXaby).map
        (fun q => (q.2.1.map absEvent).head?) =
      some (some (AbsEvent.mark 0 "x".toList 1)) := by
  refine ⟨⟨?_, ?_, ?_⟩, by decide⟩
  · rw [update_continue_some σ s regex m hσ]
  · intro y hy
    exact mem_take_bisect_lt _ _ y hy
  · intro y hy
    exact mem_drop_bisect_ge _ _ y hs hy

/-- Witness for `C3_tie_break`: inserting the match of the literal `X` at
offset 1 of `aXb` into an empty scheduler. -/
theorem C3_tie_break_witness :
    ((update_mark_position_continue sEnvX (initTextParser "aXb".toList)
        0).next_marks_revpos =
      pyInsert (initTextParser "aXb".toList).next_marks_revpos
        (bisect_left (initTextParser "aXb".toList).next_marks_revpos
          (((initTextParser "aXb".toList).remainder_text.length : Int) - 1))
        (((initTextParser "aXb".toList).remainder_text.length : Int) - 1) ∧
      (∀ y ∈ (initTextParser "aXb".toList).next_marks_revpos.take
          (bisect_left (initTextParser "aXb".toList).next_marks_revpos
            (((initTextParser "aXb".toList).remainder_text.length : Int) - 1)),
        y < ((initTextParser "aXb".toList).remainder_text.length : Int) - 1) ∧
      (∀ y ∈ (initTextParser "aXb".toList).next_marks_revpos.drop
          (bisect_left (initTextParser "aXb".toList).next_marks_revpos
            (((initTextParser "aXb".toList).remainder_text.length : Int) - 1)),
        ((initTextParser "aXb".toList).remainder_text.length : Int) - 1 ≤ y)) ∧
    (parse sEnvTie passiveEnv 10 stateXaby).map
        (fun q => (q.2.1.map absEvent).head?) =
      some (some (AbsEvent.mark 0 "x".toList 1)) :=
  C3_tie_break sEnvX (initTextParser "aXb".toList) 0 ⟨1, 2⟩ (by decide)
    (by decide)

theorem contains_eq_false_iff (l : List Nat) (a : Nat) :
    l.contains a = false ↔ a ∉ l := by
  constructor
  · intro h hc
    rw [(contains_iff_mem l a).mpr hc] at h
    exact Bool.noConfusion h
  · intro h
    cases hc : l.contains a
    · rfl
    · exact absurd ((contains_iff_mem l a).mp hc) h

theorem has_handlers_foldl_unbind (rs : List Nat) :
    ∀ (hs : Dispatcher) (r : Nat),
      has_handlers (rs.foldl (fun h x => unbind_all h x) hs) r =
        (has_handlers hs r && !(rs.contains r)) := by
  induction rs with
  | nil =>
      intro hs r
      have h2 : ([] : List Nat).contains r = false := rfl
      rw [List.foldl_nil, h2]
      simp
  | cons x rs ih =>
      intro hs r
      rw [List.foldl_cons, ih, has_handlers_unbind_all, Bool.eq_iff_iff]
      simp only [Bool.and_eq_true, Bool.not_eq_eq_eq_not, Bool.not_true,
        decide_eq_false_iff_not, contains_eq_false_iff, List.mem_cons]
      constructor
      · rintro ⟨⟨h3, h4⟩, h5⟩
        refine ⟨h3, fun hc => ?_⟩
        rcases hc with rfl | hc
        · exact h4 rfl
        · exact h5 hc
      · rintro ⟨h3, h4⟩
        exact ⟨⟨h3, fun hc => h4 (Or.inl hc)⟩, fun hc => h4 (Or.inr hc)⟩

theorem update_terminated_terminated (σ : SearchEnv) (s : TextParser)
    (regex : Nat) :
    (update_mark_position σ s regex).terminated = s.terminated := by
  unfold update_mark_position update_mark_position_terminate
    update_mark_position_continue
  by_cases h : s.terminated = true
  · rw [if_pos h]
  · rw [if_neg h]
    cases σ regex s.remainder_text <;> rfl

theorem update_term_fixpoint (σ : SearchEnv) (u : TextParser) (regex2 : Nat)
    (ht : u.terminated = true) (h1 : u.next_marks_revpos = [])
    (h2 : u.next_marks_match = []) (h3 : u.next_marks_re = []) :
    update_mark_position σ u regex2 = u := by
  unfold update_mark_position update_mark_position_terminate
  rw [if_pos ht, h3]
  rw [List.foldl_nil, ← h1, ← h2, ← h3]

/-- Claim C6, amended.  After `terminate()`, any refresh call clears all
three `next_marks_*` lists and detaches exactly the handlers of the
patterns that still have entries, for any regex argument (which is ignored
because the source shadows it); a pattern whose entry was already removed
(such as a fired pattern removed by the drain loop before the refresh)
keeps its registry handler, refuting the frozen claim's "detaches all
handlers" (see `C6_counterexample`); every further refresh call is then a
no-op. -/
theorem C6_terminated_refresh (σ : SearchEnv) (s : TextParser) (regex : Nat)
    (h : s.terminated = true) :
    (update_mark_position σ s regex).next_marks_revpos = [] ∧
    (update_mark_position σ s regex).next_marks_match = [] ∧
    (update_mark_position σ s regex).next_marks_re = [] ∧
    (∀ r ∈ s.next_marks_re,
      has_handlers (update_mark_position σ s regex).handlers r = false) ∧
    (∀ r, r ∉ s.next_marks_re →
      has_handlers (update_mark_position σ s regex).handlers r =
        has_handlers s.handlers r) ∧
    (∀ regex2, update_mark_position σ (update_mark_position σ s regex)
        regex2 = update_mark_position σ s regex) := by
  have hu : update_mark_position σ s regex =
      update_mark_position_terminate s regex := by
    unfold update_mark_position
    rw [if_pos h]
  rw [hu]
  unfold update_mark_position_terminate
  refine ⟨rfl, rfl, rfl, ?_, ?_, ?_⟩
  · intro r hr
    rw [has_handlers_foldl_unbind]
    have h2 : s.next_marks_re.contains r = true :=
      (contains_iff_mem _ _).mpr hr
    rw [h2]
    simp
  · intro r hr
    rw [has_handlers_foldl_unbind]
    have h2 : s.next_marks_re.contains r = false := by
      cases hc : s.next_marks_re.contains r
      · rfl
      · exact absurd ((contains_iff_mem _ _).mp hc) hr
    rw [h2]
    simp
  · intro regex2
    exact update_term_fixpoint σ _ regex2 h rfl rfl rfl

/-- Witness for `C6_terminated_refresh` at the concrete terminated state
`stateTermC6` with the fired pattern 5 as the (ignored) argument. -/
theorem C6_terminated_refresh_witness :
    (update_mark_position sEnvX stateTermC6 5).next_marks_revpos = [] ∧
    (update_mark_position sEnvX stateTermC6 5).next_marks_match = [] ∧
    (update_mark_position sEnvX stateTermC6 5).next_marks_re = [] ∧
    (∀ r ∈ stateTermC6.next_marks_re,
      has_handlers (update_mark_position sEnvX stateTermC6 5).handlers r =
        false) ∧
    (∀ r, r ∉ stateTermC6.next_marks_re →
      has_handlers (update_mark_position sEnvX stateTermC6 5).handlers r =
        has_handlers stateTermC6.handlers r) ∧
    (∀ regex2, update_mark_position sEnvX
        (update_mark_position sEnvX stateTermC6 5) regex2 =
        update_mark_position sEnvX stateTermC6 5) :=
  C6_terminated_refresh sEnvX stateTermC6 5 (by decide)

/-- Counterexample to claim C6 as frozen: in a terminated parser where
regex 5 is still bound but its entry was already removed by the drain loop
(only regex 6 still has an entry), the refresh call with argument 5
detaches only regex 6 and leaves regex 5 bound — it does not detach all
handlers. -/
theorem C6_counterexample :
    stateTermC6.terminated = true ∧
    (5 : Nat) ∉ stateTermC6.next_marks_re ∧
    has_handlers stateTermC6.handlers 5 = true ∧
    has_handlers (update_mark_position sEnvX stateTermC6 5).handlers 5 =
      true ∧
    has_handlers (update_mark_position sEnvX stateTermC6 5).handlers 6 =
      false := by
  refine ⟨by decide, by decide, by decide, by decide, by decide⟩

/-! Lemmas about the binding-diff folds of `reset_bindings`, building up to
the idempotence claim. -/

theorem bind_one_self_pairs (hs : Dispatcher) (k v : Nat) :
    ∀ q ∈ bind_one hs k v, q.1 = k → q = (k, v) := by
  intro q hq hqk
  unfold bind_one at hq
  by_cases h : hs.any (fun p => p.1 = k)
  · rw [if_pos h] at hq
    rcases List.mem_map.mp hq with ⟨p, _, rfl⟩
    by_cases hpk : p.1 = k
    · rw [if_pos hpk]
    · rw [if_neg hpk] at hqk ⊢
      exact absurd hqk hpk
  · rw [if_neg h] at hq
    rcases List.mem_append.mp hq with h2 | h2
    · exact absurd (List.any_eq_true.mpr ⟨q, h2, by simpa using hqk⟩) h
    · simpa using h2

theorem bind_one_mem_frame (hs : Dispatcher) (k v : Nat) :
    ∀ q ∈ bind_one hs k v, q.1 ≠ k → q ∈ hs := by
  intro q hq hqk
  unfold bind_one at hq
  by_cases h : hs.any (fun p => p.1 = k)
  · rw [if_pos h] at hq
    rcases List.mem_map.mp hq with ⟨p, hp, rfl⟩
    by_cases hpk : p.1 = k
    · rw [if_pos hpk] at hqk ⊢
      exact absurd rfl hqk
    · rwa [if_neg hpk]
  · rw [if_neg h] at hq
    rcases List.mem_append.mp hq with h2 | h2
    · exact h2
    · simp only [List.mem_singleton] at h2
      subst h2
      exact absurd rfl hqk

theorem foldl_bind_mem_frame (B : Bindings) :
    ∀ (hs : Dispatcher) (q : Nat × Nat),
      q ∈ B.foldl (fun h p => bind_one h p.1 p.2) hs →
      q.1 ∉ B.map Prod.fst → q ∈ hs := by
  induction B with
  | nil => intro hs q hq _; exact hq
  | cons p B ih =>
      intro hs q hq hqk
      simp only [List.map_cons, List.mem_cons] at hqk
      push_neg at hqk
      rw [List.foldl_cons] at hq
      exact bind_one_mem_frame hs p.1 p.2 q (ih _ q hq hqk.2) hqk.1

theorem foldl_bind_pairs (B : Bindings) :
    ∀ (hs : Dispatcher), (B.map Prod.fst).Nodup →
      ∀ k v, (k, v) ∈ B →
        ∀ q ∈ B.foldl (fun h p => bind_one h p.1 p.2) hs,
          q.1 = k → q = (k, v) := by
  induction B with
  | nil =>
      intro hs _ k v hkv
      exact absurd hkv (List.not_mem_nil _)
  | cons p B ih =>
      intro hs hnd k v hkv q hq hqk
      rw [List.map_cons, List.nodup_cons] at hnd
      rw [List.foldl_cons] at hq
      rcases List.mem_cons.mp hkv with rfl | hkv2
      · have hknotin : k ∉ B.map Prod.fst := hnd.1
        have hq2 : q ∈ bind_one hs k v :=
          foldl_bind_mem_frame B _ q hq (by rw [hqk]; exact hknotin)
        exact bind_one_self_pairs hs k v q hq2 hqk
      · exact ih _ hnd.2 k v hkv2 q hq hqk

theorem not_mem_eraseIdx_indexOf :
    ∀ (l : List Nat) (d : Nat), l.Nodup → d ∉ l.eraseIdx (l.indexOf d) := by
  intro l
  induction l with
  | nil => intro d _ hc; simp [List.eraseIdx] at hc
  | cons x xs ih =>
      intro d hnd
      rw [List.nodup_cons] at hnd
      by_cases hx : x = d
      · subst hx
        rw [List.indexOf_cons_self, List.eraseIdx_cons_zero]
        exact hnd.1
      · rw [List.indexOf_cons_ne _ (by simpa using hx),
          List.eraseIdx_cons_succ]
        intro hc
        rcases List.mem_cons.mp hc with rfl | hc2
        · exact hx rfl
        · exact ih d hnd.2 hc2

theorem del_fold_facts :
    ∀ (ds : List Nat) (u : TextParser), u.next_marks_re.Nodup →
      (let res := ds.foldl (fun st r =>
        removeEntryOf { st with handlers := unbind_all st.handlers r } r) u
      res.remainder_text = u.remainder_text ∧
      res.terminated = u.terminated ∧
      res.parse_end_handler = u.parse_end_handler ∧
      res.handlers = u.handlers.filter (fun p => ¬ ds.contains p.1) ∧
      res.next_marks_re.Nodup ∧
      (∀ r ∈ res.next_marks_re, r ∈ u.next_marks_re ∧ r ∉ ds)) := by
  intro ds
  induction ds with
  | nil =>
      intro u hnd
      refine ⟨rfl, rfl, rfl, ?_, hnd, fun r hr => ⟨hr, List.not_mem_nil r⟩⟩
      symm
      apply List.filter_eq_self.mpr
      intro p _
      simp [List.contains]
  | cons d ds ih =>
      intro u hnd
      rw [List.foldl_cons]
      have hu2nd : (removeEntryOf { u with
          handlers := unbind_all u.handlers d } d).next_marks_re.Nodup := by
        unfold removeEntryOf
        dsimp only
        exact (List.eraseIdx_sublist _ _).nodup hnd
      obtain ⟨h1, h2, h3, h4, h5, h6⟩ := ih _ hu2nd
      refine ⟨h1, h2, h3, ?_, h5, ?_⟩
      · rw [h4]
        unfold removeEntryOf unbind_all
        dsimp only
        rw [List.filter_filter]
        apply List.filter_congr
        intro p _
        rw [Bool.eq_iff_iff]
        simp only [Bool.and_eq_true, decide_eq_true_eq, ne_eq,
          contains_iff_mem, List.mem_cons, decide_not, Bool.not_eq_eq_eq_not,
          Bool.not_true, decide_eq_false_iff_not]
        constructor
        · rintro ⟨hp1, hp2⟩ (hc | hc)
          · exact hp2 hc
          · exact hp1 hc
        · intro hp
          exact ⟨fun hc => hp (Or.inr hc), fun hc => hp (Or.inl hc)⟩
      · intro r hr
        obtain ⟨hr1, hr2⟩ := h6 r hr
        unfold removeEntryOf at hr1
        dsimp only at hr1
        have hrmem : r ∈ u.next_marks_re :=
          (List.eraseIdx_sublist _ _).mem hr1
        refine ⟨hrmem, ?_⟩
        intro hc
        rcases List.mem_cons.mp hc with rfl | hc2
        · exact not_mem_eraseIdx_indexOf u.next_marks_re r hnd hr1
        · exact hr2 hc2

theorem upd_fold_facts (σ : SearchEnv) :
    ∀ (ks : List Nat) (u : TextParser), u.terminated = false →
      ks.Nodup → (∀ k ∈ ks, k ∉ u.next_marks_re) →
      u.next_marks_re.Nodup →
      (let res := ks.foldl (fun st r => update_mark_position σ st r) u
      res.remainder_text = u.remainder_text ∧
      res.terminated = false ∧
      res.parse_end_handler = u.parse_end_handler ∧
      (∀ q ∈ res.handlers, q ∈ u.handlers) ∧
      (∀ r ∈ res.next_marks_re, r ∈ u.next_marks_re ∨ r ∈ ks) ∧
      (∀ r ∈ u.next_marks_re, r ∈ res.next_marks_re) ∧
      res.next_marks_re.Nodup ∧
      (∀ k, k ∉ ks → has_handlers res.handlers k = has_handlers u.handlers k) ∧
      (∀ k ∈ ks,
        (k ∈ res.next_marks_re ∧
          has_handlers res.handlers k = has_handlers u.handlers k ∧
          σ k u.remainder_text ≠ none) ∨
        (k ∉ res.next_marks_re ∧ has_handlers res.handlers k = false ∧
          σ k u.remainder_text = none))) := by
  intro ks
  induction ks with
  | nil =>
      intro u hterm _ _ hnd
      exact ⟨rfl, hterm, rfl, fun q hq => hq, fun r hr => Or.inl hr,
        fun r hr => hr, hnd, fun k _ => rfl, fun k hk => absurd hk
          (List.not_mem_nil k)⟩
  | cons k ks ih =>
      intro u hterm hknd hkre hnd
      have hknd2 := List.nodup_cons.mp hknd
      rw [List.foldl_cons, update_mark_position_not_term σ u k hterm]
      cases hσk : σ k u.remainder_text with
      | none =>
          rw [update_continue_none σ u k hσk]
          obtain ⟨h1, h2, h3, h4, h5, h6, h7, h8, h9⟩ :=
            ih { u with handlers := unbind_all u.handlers k } hterm hknd2.2
              (fun r hr => hkre r (List.mem_cons_of_mem k hr)) hnd
          refine ⟨h1, h2, h3, ?_, ?_, h6, h7, ?_, ?_⟩
          · intro q hq
            have hq2 := h4 q hq
            exact List.mem_of_mem_filter hq2
          · intro r hr
            rcases h5 r hr with hc | hc
            · exact Or.inl hc
            · exact Or.inr (List.mem_cons_of_mem k hc)
          · intro k0 hk0
            simp only [List.mem_cons] at hk0
            push_neg at hk0
            rw [h8 k0 hk0.2]
            show has_handlers (unbind_all u.handlers k) k0 = _
            rw [has_handlers_unbind_all]
            have hd : decide (k0 = k) = false := by
              simp [hk0.1]
            rw [hd]
            simp
          · intro k0 hk0
            rcases List.mem_cons.mp hk0 with rfl | hk02
            · refine Or.inr ⟨?_, ?_, hσk⟩
              · intro hc
                rcases h5 k0 hc with hc2 | hc2
                · exact hkre k0 (List.mem_cons_self k0 ks) hc2
                · exact hknd2.1 hc2
              · rw [h8 k0 hknd2.1]
                show has_handlers (unbind_all u.handlers k0) k0 = false
                rw [has_handlers_unbind_all]
                simp
            · rcases h9 k0 hk02 with ⟨ha, hb, hc⟩ | ⟨ha, hb, hc⟩
              · refine Or.inl ⟨ha, ?_, hc⟩
                rw [hb]
                show has_handlers (unbind_all u.handlers k) k0 = _
                rw [has_handlers_unbind_all]
                have hd2 : k0 ≠ k := fun hc2 => hknd2.1 (hc2 ▸ hk02)
                have hd : decide (k0 = k) = false := by simp [hd2]
                rw [hd]
                simp
              · exact Or.inr ⟨ha, hb, hc⟩
      | some m =>
          rw [update_continue_some σ u k m hσk]
          have hterm2 : ({ u with
              next_marks_revpos := pyInsert u.next_marks_revpos
                (bisect_left u.next_marks_revpos
                  ((u.remainder_text.length : Int) - m.start))
                ((u.remainder_text.length : Int) - m.start)
              next_marks_match := pyInsert u.next_marks_match
                (bisect_left u.next_marks_revpos
                  ((u.remainder_text.length : Int) - m.start)) m
              next_marks_re := pyInsert u.next_marks_re
                (bisect_left u.next_marks_revpos
                  ((u.remainder_text.length : Int) - m.start)) k
            } : TextParser).terminated = false := hterm
          obtain ⟨h1, h2, h3, h4, h5, h6, h7, h8, h9⟩ := ih _ hterm2 hknd2.2
            (by
              intro r hr
              dsimp only
              intro hc
              rcases (mem_pyInsert _ _ _ r).mp hc with rfl | hc2
              · exact hknd2.1 hr
              · exact hkre r (List.mem_cons_of_mem k hr) hc2)
            (nodup_pyInsert _ _ k (hkre k (List.mem_cons_self k ks)) hnd)
          refine ⟨h1, h2, h3, h4, ?_, ?_, h7, ?_, ?_⟩
          · intro r hr
            rcases h5 r hr with hc2 | hc2
            · dsimp only at hc2
              rcases (mem_pyInsert _ _ _ r).mp hc2 with rfl | hc3
              · exact Or.inr (List.mem_cons_self r ks)
              · exact Or.inl hc3
            · exact Or.inr (List.mem_cons_of_mem k hc2)
          · intro r hr
            exact h6 r ((mem_pyInsert _ _ _ r).mpr (Or.inr hr))
          · intro k0 hk0
            exact h8 k0 (fun hc => hk0 (List.mem_cons_of_mem k hc))
          · intro k0 hk0
            rcases List.mem_cons.mp hk0 with rfl | hk02
            · refine Or.inl ⟨?_, h8 k0 hknd2.1, by rw [hσk]; simp⟩
              exact h6 k0 ((mem_pyInsert _ _ _ k0).mpr (Or.inl rfl))
            · exact h9 k0 hk02
theorem map_id_of_eq (f : α → α) :
    ∀ l : List α, (∀ a ∈ l, f a = a) → l.map f = l := by
  intro l
  induction l with
  | nil => intro _; rfl
  | cons x xs ih =>
      intro h
      rw [List.map_cons, h x (List.mem_cons_self x xs),
        ih (fun a ha => h a (List.mem_cons_of_mem x ha))]

theorem mem_eraseIdx_indexOf_of_ne :
    ∀ (l : List Nat) (d r : Nat), r ∈ l → r ≠ d →
      r ∈ l.eraseIdx (l.indexOf d) := by
  intro l
  induction l with
  | nil => intro d r hr _; exact absurd hr (List.not_mem_nil r)
  | cons x xs ih =>
      intro d r hr hrd
      by_cases hx : x = d
      · subst hx
        rw [List.indexOf_cons_self, List.eraseIdx_cons_zero]
        rcases List.mem_cons.mp hr with rfl | hr2
        · exact absurd rfl hrd
        · exact hr2
      · rw [List.indexOf_cons_ne _ (by simpa using hx),
          List.eraseIdx_cons_succ]
        rcases List.mem_cons.mp hr with rfl | hr2
        · exact List.mem_cons_self r _
        · exact List.mem_cons_of_mem x (ih d r hr2 hrd)

theorem del_fold_mem_preserve :
    ∀ (ds : List Nat) (u : TextParser), ∀ r ∈ u.next_marks_re, r ∉ ds →
      r ∈ (ds.foldl (fun st d =>
        removeEntryOf { st with handlers := unbind_all st.handlers d } d)
        u).next_marks_re := by
  intro ds
  induction ds with
  | nil => intro u r hr _; exact hr
  | cons d ds ih =>
      intro u r hr hrd
      simp only [List.mem_cons] at hrd
      push_neg at hrd
      rw [List.foldl_cons]
      refine ih _ r ?_ hrd.2
      unfold removeEntryOf
      dsimp only
      exact mem_eraseIdx_indexOf_of_ne _ d r hr hrd.1

theorem foldl_unbind_filter :
    ∀ (rs : List Nat) (hs : Dispatcher),
      rs.foldl (fun h r => unbind_all h r) hs =
        hs.filter (fun p => ¬ rs.contains p.1) := by
  intro rs
  induction rs with
  | nil =>
      intro hs
      rw [List.foldl_nil]
      symm
      apply List.filter_eq_self.mpr
      intro p _
      simp [List.contains]
  | cons r rs ih =>
      intro hs
      rw [List.foldl_cons, ih]
      unfold unbind_all
      rw [List.filter_filter]
      apply List.filter_congr
      intro p _
      rw [Bool.eq_iff_iff]
      simp only [Bool.and_eq_true, decide_eq_true_eq, ne_eq,
        contains_iff_mem, List.mem_cons, decide_not, Bool.not_eq_eq_eq_not,
        Bool.not_true, decide_eq_false_iff_not]
      constructor
      · rintro ⟨hp1, hp2⟩ (hc | hc)
        · exact hp2 hc
        · exact hp1 hc
      · intro hp
        exact ⟨fun hc => hp (Or.inr hc), fun hc => hp (Or.inl hc)⟩

theorem upd_fold_all_none (σ : SearchEnv) :
    ∀ (ks : List Nat) (u : TextParser), u.terminated = false →
      (∀ k ∈ ks, σ k u.remainder_text = none) →
      ks.foldl (fun st r => update_mark_position σ st r) u =
        { u with handlers :=
          u.handlers.filter (fun p => ¬ ks.contains p.1) } := by
  intro ks
  induction ks with
  | nil =>
      intro u hterm _
      rw [List.foldl_nil]
      have h2 : u.handlers.filter
          (fun p => ¬ (([] : List Nat).contains p.1)) = u.handlers := by
        apply List.filter_eq_self.mpr
        intro p _
        simp [List.contains]
      rw [h2]
  | cons k ks ih =>
      intro u hterm hnone
      rw [List.foldl_cons, update_mark_position_not_term σ u k hterm,
        update_continue_none σ u k (hnone k (List.mem_cons_self k ks)),
        ih { u with handlers := unbind_all u.handlers k } hterm
          (fun k2 hk2 => hnone k2 (List.mem_cons_of_mem k hk2))]
      refine congrArg (fun hh => { u with handlers := hh }) ?_
      unfold unbind_all
      rw [List.filter_filter]
      apply List.filter_congr
      intro p _
      rw [Bool.eq_iff_iff]
      simp only [Bool.and_eq_true, decide_eq_true_eq, ne_eq,
        contains_iff_mem, List.mem_cons, decide_not, Bool.not_eq_eq_eq_not,
        Bool.not_true, decide_eq_false_iff_not]
      constructor
      · rintro ⟨hp1, hp2⟩ (hc | hc)
        · exact hp2 hc
        · exact hp1 hc
      · intro hp
        exact ⟨fun hc => hp (Or.inr hc), fun hc => hp (Or.inl hc)⟩

theorem foldl_bind_split :
    ∀ (B : Bindings) (hs : Dispatcher), (B.map Prod.fst).Nodup →
      (∀ p ∈ B, ∀ q ∈ hs, q.1 = p.1 → q = p) →
      B.foldl (fun h p => bind_one h p.1 p.2) hs =
        hs ++ B.filter (fun p => ¬ has_handlers hs p.1) := by
  intro B
  induction B with
  | nil =>
      intro hs _ _
      rw [List.foldl_nil, List.filter_nil, List.append_nil]
  | cons p B ih =>
      intro hs hnd hcond
      rw [List.map_cons, List.nodup_cons] at hnd
      rw [List.foldl_cons]
      by_cases h : hs.any (fun q => q.1 = p.1)
      · have hb : bind_one hs p.1 p.2 = hs := by
          unfold bind_one
          rw [if_pos h]
          apply map_id_of_eq
          intro q hq
          by_cases hq1 : q.1 = p.1
          · rw [if_pos hq1]
            exact (hcond p (List.mem_cons_self p B) q hq hq1).symm
          · rw [if_neg hq1]
        rw [hb, ih hs hnd.2 (fun p2 hp2 q hq hq1 =>
          hcond p2 (List.mem_cons_of_mem p hp2) q hq hq1)]
        have hneg : ¬ ((decide ¬ (has_handlers hs p.1 = true)) = true) := by
          have hh : has_handlers hs p.1 = true := h
          simp [hh]
        rw [List.filter_cons, if_neg hneg]
      · have hb : bind_one hs p.1 p.2 = hs ++ [(p.1, p.2)] := by
          unfold bind_one
          rw [if_neg h]
        rw [hb]
        have hcond2 : ∀ p2 ∈ B, ∀ q ∈ hs ++ [(p.1, p.2)],
            q.1 = p2.1 → q = p2 := by
          intro p2 hp2 q hq hq1
          rcases List.mem_append.mp hq with hq2 | hq2
          · exact hcond p2 (List.mem_cons_of_mem p hp2) q hq2 hq1
          · simp only [List.mem_singleton] at hq2
            subst hq2
            exfalso
            apply hnd.1
            have hq1b : p.1 = p2.1 := hq1
            rw [hq1b]
            exact List.mem_map_of_mem Prod.fst hp2
        rw [ih (hs ++ [(p.1, p.2)]) hnd.2 hcond2]
        have hfil : B.filter (fun p2 =>
              ¬ has_handlers (hs ++ [(p.1, p.2)]) p2.1)
            = B.filter (fun p2 => ¬ has_handlers hs p2.1) := by
          apply List.filter_congr
          intro p2 hp2
          have hne : p.1 ≠ p2.1 := fun hc =>
            hnd.1 (by rw [hc]; exact List.mem_map_of_mem Prod.fst hp2)
          have hha : has_handlers (hs ++ [(p.1, p.2)]) p2.1
              = has_handlers hs p2.1 := by
            unfold has_handlers
            rw [List.any_append]
            have h1 : [(p.1, p.2)].any (fun q => q.1 = p2.1) = false := by
              simp [hne]
            rw [h1, Bool.or_false]
          simp only [hha]
        rw [hfil]
        have hpos : ((decide ¬ (has_handlers hs p.1 = true)) = true) := by
          have hh : has_handlers hs p.1 = false := by
            cases hc : has_handlers hs p.1
            · rfl
            · exact absurd hc h
          simp [hh]
        rw [List.filter_cons, if_pos hpos, List.append_assoc,
          List.singleton_append]
theorem reset_facts (σ : SearchEnv) (s : TextParser) (B : Bindings)
    (hterm : s.terminated = false) (hnd : (B.map Prod.fst).Nodup)
    (hrend : s.next_marks_re.Nodup) :
    (let s1 := reset_bindings σ s B
    s1.remainder_text = s.remainder_text ∧
    s1.terminated = false ∧
    s1.parse_end_handler = s.parse_end_handler ∧
    s1.next_marks_re.Nodup ∧
    (∀ r ∈ s1.next_marks_re, r ∈ B.map Prod.fst) ∧
    (∀ k v, (k, v) ∈ B → ∀ q ∈ s1.handlers, q.1 = k →
      q = (k, v) ∧ k ∈ s1.next_marks_re) ∧
    (∀ k ∈ B.map Prod.fst, k ∉ s1.next_marks_re →
      has_handlers s1.handlers k = false ∧ σ k s1.remainder_text = none) ∧
    (∀ k ∈ s1.next_marks_re, has_handlers s1.handlers k = true)) := by
  obtain ⟨D1, D2, D3, D4, D5, D6⟩ := del_fold_facts
    (s.next_marks_re.filter (fun r => ¬ (B.map Prod.fst).contains r))
    { s with handlers :=
      B.foldl (fun hs p => bind_one hs p.1 p.2) s.handlers } hrend
  have D7 := del_fold_mem_preserve
    (s.next_marks_re.filter (fun r => ¬ (B.map Prod.fst).contains r))
    { s with handlers :=
      B.foldl (fun hs p => bind_one hs p.1 p.2) s.handlers }
  set sA : TextParser :=
    { s with handlers := B.foldl (fun hs p => bind_one hs p.1 p.2) s.handlers }
    with hsAdef
  set ds : List Nat := s.next_marks_re.filter
    (fun r => ¬ (B.map Prod.fst).contains r) with hdsdef
  set nw : List Nat := (B.map Prod.fst).filter
    (fun r => ¬ s.next_marks_re.contains r) with hnwdef
  set sB : TextParser := ds.foldl (fun st r =>
    removeEntryOf { st with handlers := unbind_all st.handlers r } r) sA
    with hsBdef
  have hdsmem : ∀ r, r ∈ ds → r ∈ s.next_marks_re ∧ r ∉ B.map Prod.fst := by
    intro r hr
    rw [hdsdef] at hr
    have h1 := List.mem_of_mem_filter hr
    have h2 := List.of_mem_filter hr
    simp only [decide_eq_true_eq] at h2
    exact ⟨h1, fun hc => h2 ((contains_iff_mem _ _).mpr hc)⟩
  have hdsnot : ∀ r, r ∈ s.next_marks_re → r ∈ B.map Prod.fst → r ∉ ds := by
    intro r _ hk hc
    exact (hdsmem r hc).2 hk
  have hdsnot2 : ∀ r, r ∉ B.map Prod.fst → r ∈ s.next_marks_re →
      r ∈ ds := by
    intro r hk hr
    rw [hdsdef]
    refine List.mem_filter.mpr ⟨hr, ?_⟩
    simp only [decide_eq_true_eq]
    rw [(contains_eq_false_iff _ _).mpr hk]
    simp
  have hnwmem : ∀ r, r ∈ nw → r ∈ B.map Prod.fst ∧
      r ∉ s.next_marks_re := by
    intro r hr
    rw [hnwdef] at hr
    have h1 := List.mem_of_mem_filter hr
    have h2 := List.of_mem_filter hr
    simp only [decide_eq_true_eq] at h2
    exact ⟨h1, fun hc => h2 ((contains_iff_mem _ _).mpr hc)⟩
  have hnwmem2 : ∀ r, r ∈ B.map Prod.fst → r ∉ s.next_marks_re →
      r ∈ nw := by
    intro r hk hr
    rw [hnwdef]
    refine List.mem_filter.mpr ⟨hk, ?_⟩
    simp only [decide_eq_true_eq]
    rw [(contains_eq_false_iff _ _).mpr hr]
    simp
  have hsBterm : sB.terminated = false := by
    rw [D2]
    exact hterm
  have hsBre : ∀ r ∈ sB.next_marks_re, r ∈ s.next_marks_re ∧ r ∉ ds := D6
  have hsBre2 : ∀ r, r ∈ s.next_marks_re → r ∉ ds →
      r ∈ sB.next_marks_re := by
    intro r hr hrd
    exact D7 r hr hrd
  have hnwnd : nw.Nodup := by
    rw [hnwdef]
    exact hnd.filter _
  have hnwnotB : ∀ k ∈ nw, k ∉ sB.next_marks_re := by
    intro k hk hc
    exact (hnwmem k hk).2 (hsBre k hc).1
  obtain ⟨U1, U2, U3, U4, U5, U6, U7, U8, U9⟩ :=
    upd_fold_facts σ nw sB hsBterm hnwnd hnwnotB D5
  set sC : TextParser := nw.foldl (fun st r => update_mark_position σ st r) sB
    with hsCdef
  have hhasB : ∀ k, has_handlers sB.handlers k =
      ((has_handlers s.handlers k || (B.map Prod.fst).contains k)
        && !(ds.contains k)) := by
    intro k
    rw [D4, ← foldl_unbind_filter, has_handlers_foldl_unbind]
    congr 1
    show has_handlers (B.foldl (fun hs p => bind_one hs p.1 p.2) s.handlers) k
      = _
    rw [has_handlers_foldl_bind]
  have F0 : sC.remainder_text = s.remainder_text := by
    rw [U1, D1]
  have F3 : sC.parse_end_handler = s.parse_end_handler := by
    rw [U3, D3]
  have F5 : ∀ r ∈ sC.next_marks_re, r ∈ B.map Prod.fst := by
    intro r hr
    rcases U5 r hr with hc | hc
    · by_contra hk
      exact (hsBre r hc).2 (hdsnot2 r hk (hsBre r hc).1)
    · exact (hnwmem r hc).1
  have F6 : ∀ k v, (k, v) ∈ B → ∀ q ∈ sC.handlers, q.1 = k →
      q = (k, v) ∧ k ∈ sC.next_marks_re := by
    intro k v hkv q hq hqk
    have hqB : q ∈ sB.handlers := U4 q hq
    rw [D4] at hqB
    have hqA : q ∈ sA.handlers := List.mem_of_mem_filter hqB
    have hqpair : q = (k, v) := by
      refine foldl_bind_pairs B s.handlers hnd k v hkv q ?_ hqk
      exact hqA
    refine ⟨hqpair, ?_⟩
    have hkkeys : k ∈ B.map Prod.fst := List.mem_map_of_mem Prod.fst hkv
    by_cases hkB : k ∈ sB.next_marks_re
    · exact U6 k hkB
    · have hknotre : k ∉ s.next_marks_re := by
        intro hc
        exact hkB (hsBre2 k hc (hdsnot k hc hkkeys))
      have hknw : k ∈ nw := hnwmem2 k hkkeys hknotre
      rcases U9 k hknw with ⟨hin, _, _⟩ | ⟨_, hhf, _⟩
      · exact hin
      · exfalso
        have hhast : has_handlers sC.handlers k = true :=
          List.any_eq_true.mpr ⟨q, hq, by simp [hqk]⟩
        rw [hhast] at hhf
        exact Bool.noConfusion hhf
  have F7 : ∀ k ∈ B.map Prod.fst, k ∉ sC.next_marks_re →
      has_handlers sC.handlers k = false ∧
        σ k sC.remainder_text = none := by
    intro k hk hknot
    have hknotre : k ∉ s.next_marks_re := by
      intro hc
      exact hknot (U6 k (hsBre2 k hc (hdsnot k hc hk)))
    have hknw : k ∈ nw := hnwmem2 k hk hknotre
    rcases U9 k hknw with ⟨hin, _, _⟩ | ⟨_, hhf, hσn⟩
    · exact absurd hin hknot
    · refine ⟨hhf, ?_⟩
      rw [U1]
      exact hσn
  have F8 : ∀ k ∈ sC.next_marks_re, has_handlers sC.handlers k = true := by
    intro k hk
    rcases U5 k hk with hkB | hknw
    · obtain ⟨hks, hkds⟩ := hsBre k hkB
      have hkkeys : k ∈ B.map Prod.fst := by
        by_contra hc
        exact hkds (hdsnot2 k hc hks)
      have hknotnw : k ∉ nw := by
        intro hc
        exact (hnwmem k hc).2 hks
      rw [U8 k hknotnw, hhasB k]
      have h1 : (B.map Prod.fst).contains k = true :=
        (contains_iff_mem _ _).mpr hkkeys
      have h2 : ds.contains k = false := (contains_eq_false_iff _ _).mpr hkds
      rw [h1, h2]
      simp
    · rcases U9 k hknw with ⟨_, hheq, _⟩ | ⟨hnotin, _, _⟩
      · rw [hheq, hhasB k]
        obtain ⟨hkkeys, hknotre⟩ := hnwmem k hknw
        have hkds : k ∉ ds := fun hc => hknotre (hdsmem k hc).1
        have h1 : (B.map Prod.fst).contains k = true :=
          (contains_iff_mem _ _).mpr hkkeys
        have h2 : ds.contains k = false := (contains_eq_false_iff _ _).mpr hkds
        rw [h1, h2]
        simp
      · exact absurd hk hnotin
  exact ⟨F0, U2, F3, U7, F5, F6, F7, F8⟩
/-- C7: on a live (non-terminated) parser whose binding keys and pending
entry list are duplicate-free, calling `reset_bindings` twice in a row with
the same binding set leaves the state exactly equal to calling it once: the
second call adds no duplicate entries, fires no handlers (`reset_bindings`
never dispatches events), and every retained pattern's cached entry is
untouched. -/
theorem C7_reconcile_idempotent (σ : SearchEnv) (s : TextParser)
    (B : Bindings) (hterm : s.terminated = false)
    (hnd : (B.map Prod.fst).Nodup) (hrend : s.next_marks_re.Nodup) :
    reset_bindings σ (reset_bindings σ s B) B = reset_bindings σ s B := by
  obtain ⟨F0, F2, F3, F4, F5, F6, F7, F8⟩ := reset_facts σ s B hterm hnd hrend
  set s1 : TextParser := reset_bindings σ s B with hs1def
  have hexp : reset_bindings σ s1 B =
      ((B.map Prod.fst).filter (fun r => ¬ s1.next_marks_re.contains r)).foldl
        (fun st r => update_mark_position σ st r)
        ((s1.next_marks_re.filter
            (fun r => ¬ (B.map Prod.fst).contains r)).foldl
          (fun st r =>
            removeEntryOf { st with handlers := unbind_all st.handlers r } r)
          { s1 with handlers := B.foldl (fun hs p => bind_one hs p.1 p.2) s1.handlers }) := rfl
  rw [hexp]
  have hds2 : s1.next_marks_re.filter
      (fun r => ¬ (B.map Prod.fst).contains r) = [] := by
    apply List.filter_eq_nil_iff.mpr
    intro r hr
    simp only [decide_eq_true_eq]
    intro hc
    exact hc ((contains_iff_mem _ _).mpr (F5 r hr))
  rw [hds2, List.foldl_nil]
  have hcond : ∀ p ∈ B, ∀ q ∈ s1.handlers, q.1 = p.1 → q = p := by
    intro p hp q hq hq1
    have h2 := F6 p.1 p.2 hp q hq hq1
    exact h2.1
  rw [foldl_bind_split B s1.handlers hnd hcond]
  have hnone : ∀ k ∈ (B.map Prod.fst).filter
      (fun r => ¬ s1.next_marks_re.contains r),
      σ k s1.remainder_text = none := by
    intro k hk
    have h1 := List.mem_of_mem_filter hk
    have h2 := List.of_mem_filter hk
    simp only [decide_eq_true_eq] at h2
    have h3 : k ∉ s1.next_marks_re := fun hc =>
      h2 ((contains_iff_mem _ _).mpr hc)
    exact (F7 k h1 h3).2
  rw [upd_fold_all_none σ
    ((B.map Prod.fst).filter (fun r => ¬ s1.next_marks_re.contains r))
    { s1 with handlers := s1.handlers ++ B.filter (fun p => ¬ has_handlers s1.handlers p.1) }
    F2 hnone]
  have hl : s1.handlers.filter
      (fun p => ¬ ((B.map Prod.fst).filter
        (fun r => ¬ s1.next_marks_re.contains r)).contains p.1)
      = s1.handlers := by
    apply List.filter_eq_self.mpr
    intro q hq
    simp only [decide_eq_true_eq]
    intro hc
    have hmem := (contains_iff_mem _ _).mp hc
    have h1 := List.mem_of_mem_filter hmem
    have h2 := List.of_mem_filter hmem
    simp only [decide_eq_true_eq] at h2
    have h3 : q.1 ∉ s1.next_marks_re := fun hcc =>
      h2 ((contains_iff_mem _ _).mpr hcc)
    have h4 := (F7 q.1 h1 h3).1
    have h5 : has_handlers s1.handlers q.1 = true :=
      List.any_eq_true.mpr ⟨q, hq, by simp⟩
    rw [h5] at h4
    exact Bool.noConfusion h4
  have hr : (B.filter (fun p => ¬ has_handlers s1.handlers p.1)).filter
      (fun p => ¬ ((B.map Prod.fst).filter
        (fun r => ¬ s1.next_marks_re.contains r)).contains p.1)
      = [] := by
    apply List.filter_eq_nil_iff.mpr
    intro q hq
    have h1 : q ∈ B := List.mem_of_mem_filter hq
    have h2 := List.of_mem_filter hq
    simp only [decide_eq_true_eq] at h2
    have h3 : q.1 ∉ s1.next_marks_re := by
      intro hcc
      have h4 := F8 q.1 hcc
      rw [h4] at h2
      exact h2 rfl
    have h5 : q.1 ∈ (B.map Prod.fst).filter
        (fun r => ¬ s1.next_marks_re.contains r) := by
      refine List.mem_filter.mpr ⟨List.mem_map_of_mem Prod.fst h1, ?_⟩
      simp only [decide_eq_true_eq]
      intro hcc
      exact h3 ((contains_iff_mem _ _).mp hcc)
    simp only [decide_eq_true_eq]
    intro hcc
    exact hcc ((contains_iff_mem _ _).mpr h5)
  rw [List.filter_append, hl, hr, List.append_nil]
/-- Closed instance of the C7 idempotence theorem: rebinding the single
literal pattern of the spec's worked example a second time is a no-op. -/
theorem C7_reconcile_idempotent_witness :
    (initTextParser "aXbXc".toList).terminated = false ∧
    ((([(0, 10)] : Bindings).map Prod.fst).Nodup) ∧
    (initTextParser "aXbXc".toList).next_marks_re.Nodup ∧
    reset_bindings sEnvX
        (reset_bindings sEnvX (initTextParser "aXbXc".toList) [(0, 10)])
        [(0, 10)]
      = reset_bindings sEnvX (initTextParser "aXbXc".toList) [(0, 10)] :=
  ⟨rfl, by decide, by decide,
    C7_reconcile_idempotent sEnvX (initTextParser "aXbXc".toList) [(0, 10)]
      rfl (by decide) (by decide)⟩
theorem find?_pyInsert (p : α → Bool) (l : List α) (i : Nat) (x : α)
    (hx : ¬ p x = true) :
    (pyInsert l i x).find? p = l.find? p := by
  unfold pyInsert
  rw [List.find?_append, List.find?_cons_of_neg _ hx, ← List.find?_append,
    List.take_append_drop]

theorem find?_eraseIdx_key :
    ∀ (L : List (Int × Mark × Nat)) (d r : Nat), d ≠ r →
      (L.eraseIdx ((L.map (fun e => e.2.2)).indexOf d)).find?
        (fun e => e.2.2 = r) = L.find? (fun e => e.2.2 = r) := by
  intro L
  induction L with
  | nil => intro d r _; rfl
  | cons e L ih =>
      intro d r hdr
      rw [List.map_cons]
      by_cases he : e.2.2 = d
      · rw [he, List.indexOf_cons_self, List.eraseIdx_cons_zero,
          List.find?_cons_of_neg _ (by simp [he, hdr])]
      · rw [List.indexOf_cons_ne _ (by simpa using he),
          List.eraseIdx_cons_succ]
        by_cases hpe : e.2.2 = r
        · rw [List.find?_cons_of_pos _ (by simp [hpe]),
            List.find?_cons_of_pos _ (by simp [hpe])]
        · rw [List.find?_cons_of_neg _ (by simp [hpe]),
            List.find?_cons_of_neg _ (by simp [hpe])]
          exact ih d r hdr

theorem lookupEntry_removeEntryOf_ne (s : TextParser) (d r : Nat)
    (hdr : d ≠ r)
    (lenM : s.next_marks_match.length = s.next_marks_revpos.length)
    (lenR : s.next_marks_re.length = s.next_marks_revpos.length) :
    lookupEntry (removeEntryOf s d) r = lookupEntry s r := by
  unfold lookupEntry
  rw [entriesOf_removeEntryOf s d lenM lenR, ← entries_map_re s lenM lenR,
    find?_eraseIdx_key (entriesOf s) d r hdr]

theorem lookupEntry_insert_ne (u : TextParser) (k r : Nat) (m : Mark)
    (rv : Int) (hkr : k ≠ r)
    (lenM : u.next_marks_match.length = u.next_marks_revpos.length)
    (lenR : u.next_marks_re.length = u.next_marks_revpos.length) :
    lookupEntry { u with
      next_marks_revpos := pyInsert u.next_marks_revpos
        (bisect_left u.next_marks_revpos rv) rv
      next_marks_match := pyInsert u.next_marks_match
        (bisect_left u.next_marks_revpos rv) m
      next_marks_re := pyInsert u.next_marks_re
        (bisect_left u.next_marks_revpos rv) k } r = lookupEntry u r := by
  unfold lookupEntry
  have he : entriesOf { u with
      next_marks_revpos := pyInsert u.next_marks_revpos
        (bisect_left u.next_marks_revpos rv) rv
      next_marks_match := pyInsert u.next_marks_match
        (bisect_left u.next_marks_revpos rv) m
      next_marks_re := pyInsert u.next_marks_re
        (bisect_left u.next_marks_revpos rv) k }
      = pyInsert (entriesOf u) (bisect_left u.next_marks_revpos rv)
        (rv, m, k) := by
    unfold entriesOf
    dsimp only
    exact entriesOf_pyInsert u rv m k (bisect_left u.next_marks_revpos rv)
      lenM lenR (bisect_left_le_length _ _)
  rw [he, find?_pyInsert _ _ _ _ (by simp [hkr])]

theorem lookupEntry_continue_ne (σ : SearchEnv) (u : TextParser) (k r : Nat)
    (hkr : k ≠ r)
    (lenM : u.next_marks_match.length = u.next_marks_revpos.length)
    (lenR : u.next_marks_re.length = u.next_marks_revpos.length) :
    lookupEntry (update_mark_position_continue σ u k) r = lookupEntry u r := by
  cases hσk : σ k u.remainder_text with
  | none =>
      rw [update_continue_none σ u k hσk]
      rfl
  | some m =>
      rw [update_continue_some σ u k m hσk]
      exact lookupEntry_insert_ne u k r m _ hkr lenM lenR

theorem removeEntry_state (u : TextParser) (d : Nat)
    (lenM : u.next_marks_match.length = u.next_marks_revpos.length)
    (lenR : u.next_marks_re.length = u.next_marks_revpos.length) :
    (let u2 := removeEntryOf u d
    u2.remainder_text = u.remainder_text ∧
    u2.terminated = u.terminated ∧
    u2.handlers = u.handlers ∧
    u2.next_marks_match.length = u2.next_marks_revpos.length ∧
    u2.next_marks_re.length = u2.next_marks_revpos.length) := by
  unfold removeEntryOf
  refine ⟨rfl, rfl, rfl, ?_, ?_⟩
  · dsimp only
    rw [List.length_eraseIdx, List.length_eraseIdx, lenM]
  · dsimp only
    rw [List.length_eraseIdx, List.length_eraseIdx, lenR]

theorem continue_state (σ : SearchEnv) (u : TextParser) (k : Nat)
    (lenM : u.next_marks_match.length = u.next_marks_revpos.length)
    (lenR : u.next_marks_re.length = u.next_marks_revpos.length) :
    (let u2 := update_mark_position_continue σ u k
    u2.remainder_text = u.remainder_text ∧
    u2.terminated = u.terminated ∧
    u2.parse_end_handler = u.parse_end_handler ∧
    u2.next_marks_match.length = u2.next_marks_revpos.length ∧
    u2.next_marks_re.length = u2.next_marks_revpos.length) := by
  cases hσk : σ k u.remainder_text with
  | none =>
      rw [update_continue_none σ u k hσk]
      exact ⟨rfl, rfl, rfl, lenM, lenR⟩
  | some m =>
      rw [update_continue_some σ u k m hσk]
      refine ⟨rfl, rfl, rfl, ?_, ?_⟩
      · dsimp only
        rw [length_pyInsert, length_pyInsert]
        omega
      · dsimp only
        rw [length_pyInsert, length_pyInsert]
        omega

theorem del_fold_state :
    ∀ (ds : List Nat) (u : TextParser),
      u.next_marks_match.length = u.next_marks_revpos.length →
      u.next_marks_re.length = u.next_marks_revpos.length →
      (let res := ds.foldl (fun st d =>
        removeEntryOf { st with handlers := unbind_all st.handlers d } d) u
      res.remainder_text = u.remainder_text ∧
      res.terminated = u.terminated ∧
      res.next_marks_match.length = res.next_marks_revpos.length ∧
      res.next_marks_re.length = res.next_marks_revpos.length) := by
  intro ds
  induction ds with
  | nil => intro u lenM lenR; exact ⟨rfl, rfl, lenM, lenR⟩
  | cons d ds ih =>
      intro u lenM lenR
      rw [List.foldl_cons]
      obtain ⟨s1, s2, _, s4, s5⟩ := removeEntry_state
        { u with handlers := unbind_all u.handlers d } d lenM lenR
      obtain ⟨h1, h2, h3, h4⟩ := ih (removeEntryOf
        { u with handlers := unbind_all u.handlers d } d) s4 s5
      exact ⟨h1.trans s1, h2.trans s2, h3, h4⟩

theorem upd_fold_state (σ : SearchEnv) :
    ∀ (ks : List Nat) (u : TextParser), u.terminated = false →
      u.next_marks_match.length = u.next_marks_revpos.length →
      u.next_marks_re.length = u.next_marks_revpos.length →
      (let res := ks.foldl (fun st k => update_mark_position σ st k) u
      res.remainder_text = u.remainder_text ∧
      res.terminated = false ∧
      res.next_marks_match.length = res.next_marks_revpos.length ∧
      res.next_marks_re.length = res.next_marks_revpos.length) := by
  intro ks
  induction ks with
  | nil => intro u hterm lenM lenR; exact ⟨rfl, hterm, lenM, lenR⟩
  | cons k ks ih =>
      intro u hterm lenM lenR
      rw [List.foldl_cons, update_mark_position_not_term σ u k hterm]
      obtain ⟨s1, s2, _, s4, s5⟩ := continue_state σ u k lenM lenR
      obtain ⟨h1, h2, h3, h4⟩ := ih (update_mark_position_continue σ u k)
        (s2.trans hterm) s4 s5
      exact ⟨h1.trans s1, h2, h3, h4⟩

theorem del_fold_lookup :
    ∀ (ds : List Nat) (u : TextParser) (r : Nat), r ∉ ds →
      u.next_marks_match.length = u.next_marks_revpos.length →
      u.next_marks_re.length = u.next_marks_revpos.length →
      lookupEntry (ds.foldl (fun st d =>
        removeEntryOf { st with handlers := unbind_all st.handlers d } d) u) r
        = lookupEntry u r := by
  intro ds
  induction ds with
  | nil => intro u r _ _ _; rfl
  | cons d ds ih =>
      intro u r hr lenM lenR
      simp only [List.mem_cons] at hr
      push_neg at hr
      rw [List.foldl_cons]
      obtain ⟨_, _, _, s4, s5⟩ := removeEntry_state
        { u with handlers := unbind_all u.handlers d } d lenM lenR
      rw [ih (removeEntryOf { u with handlers := unbind_all u.handlers d } d)
        r hr.2 s4 s5]
      exact lookupEntry_removeEntryOf_ne
        { u with handlers := unbind_all u.handlers d } d r
        (fun hc => hr.1 hc.symm) lenM lenR

theorem upd_fold_lookup (σ : SearchEnv) :
    ∀ (ks : List Nat) (u : TextParser) (r : Nat), u.terminated = false →
      r ∉ ks →
      u.next_marks_match.length = u.next_marks_revpos.length →
      u.next_marks_re.length = u.next_marks_revpos.length →
      lookupEntry (ks.foldl (fun st k => update_mark_position σ st k) u) r
        = lookupEntry u r := by
  intro ks
  induction ks with
  | nil => intro u r _ _ _ _; rfl
  | cons k ks ih =>
      intro u r hterm hkr lenM lenR
      simp only [List.mem_cons] at hkr
      push_neg at hkr
      rw [List.foldl_cons, update_mark_position_not_term σ u k hterm]
      obtain ⟨_, s2, _, s4, s5⟩ := continue_state σ u k lenM lenR
      rw [ih (update_mark_position_continue σ u k) r (s2.trans hterm)
        hkr.2 s4 s5]
      exact lookupEntry_continue_ne σ u k r (fun hc => hkr.1 hc.symm)
        lenM lenR
/-- C8: `prepend_text_and_reset_bindings` concatenates the given text in
front of the remainder and then reconciles; on a live parser the cached
`(distance_from_end, match)` entry of every pattern retained by the call
(present in the new binding set and still holding a pending entry) is left
exactly unchanged — only added patterns are searched afresh — even though
the prepended text may contain an earlier match for a retained pattern. -/
theorem C8_prepend_frame (σ : SearchEnv) (s : TextParser) (text : List Char)
    (B : Bindings) (hterm : s.terminated = false)
    (lenM : s.next_marks_match.length = s.next_marks_revpos.length)
    (lenR : s.next_marks_re.length = s.next_marks_revpos.length) :
    (let s2 := prepend_text_and_reset_bindings σ s text B
    s2.remainder_text = text ++ s.remainder_text ∧
    (∀ r ∈ B.map Prod.fst, r ∈ s.next_marks_re →
      lookupEntry s2 r = lookupEntry s r)) := by
  have hexp : prepend_text_and_reset_bindings σ s text B =
      ((B.map Prod.fst).filter (fun r =>
          ¬ s.next_marks_re.contains r)).foldl
        (fun st r => update_mark_position σ st r)
        ((s.next_marks_re.filter
            (fun r => ¬ (B.map Prod.fst).contains r)).foldl
          (fun st r =>
            removeEntryOf { st with handlers := unbind_all st.handlers r } r)
          { s with remainder_text := text ++ s.remainder_text, handlers := B.foldl (fun hs p => bind_one hs p.1 p.2) s.handlers }) := rfl
  set sA : TextParser :=
    { s with remainder_text := text ++ s.remainder_text, handlers := B.foldl (fun hs p => bind_one hs p.1 p.2) s.handlers }
    with hsAdef
  set ds : List Nat := s.next_marks_re.filter
    (fun r => ¬ (B.map Prod.fst).contains r) with hdsdef
  set nw : List Nat := (B.map Prod.fst).filter
    (fun r => ¬ s.next_marks_re.contains r) with hnwdef
  set sB : TextParser := ds.foldl (fun st r =>
    removeEntryOf { st with handlers := unbind_all st.handlers r } r) sA
    with hsBdef
  obtain ⟨hdr, hdt, hdM, hdR⟩ := del_fold_state ds sA lenM lenR
  have hBterm : sB.terminated = false := by
    rw [hdt]
    exact hterm
  obtain ⟨hur, hut, huM, huR⟩ := upd_fold_state σ nw sB hBterm hdM hdR
  refine ⟨?_, ?_⟩
  · rw [hexp, hur, hdr, hsAdef]
  · intro r hrk hrre
    have hrds : r ∉ ds := by
      intro hc
      rw [hdsdef] at hc
      have h2 := List.of_mem_filter hc
      simp only [decide_eq_true_eq] at h2
      exact h2 ((contains_iff_mem _ _).mpr hrk)
    have hrnw : r ∉ nw := by
      intro hc
      rw [hnwdef] at hc
      have h2 := List.of_mem_filter hc
      simp only [decide_eq_true_eq] at h2
      exact h2 ((contains_iff_mem _ _).mpr hrre)
    rw [hexp, upd_fold_lookup σ nw sB r hBterm hrnw hdM hdR, hsBdef,
      del_fold_lookup ds sA r hrds lenM lenR, hsAdef]
    rfl

/-- Closed instance of the C8 frame theorem: prepending `zX` (which
contains an earlier `X`) while keeping pattern 0 bound leaves pattern 0's
cached entry over the old remainder `bXc` untouched. -/
theorem C8_prepend_frame_witness :
    stateAXbXc.terminated = false ∧
    stateAXbXc.next_marks_match.length
      = stateAXbXc.next_marks_revpos.length ∧
    stateAXbXc.next_marks_re.length
      = stateAXbXc.next_marks_revpos.length ∧
    (0 ∈ ([(0, 10)] : Bindings).map Prod.fst ∧
      0 ∈ stateAXbXc.next_marks_re) ∧
    (prepend_text_and_reset_bindings sEnvX stateAXbXc "zX".toList
        [(0, 10)]).remainder_text
      = "zX".toList ++ stateAXbXc.remainder_text ∧
    lookupEntry (prepend_text_and_reset_bindings sEnvX stateAXbXc "zX".toList
        [(0, 10)]) 0
      = lookupEntry stateAXbXc 0 :=
  have h := C8_prepend_frame sEnvX stateAXbXc "zX".toList [(0, 10)]
    (by decide) (by decide) (by decide)
  ⟨by decide, by decide, by decide, ⟨by decide, by decide⟩,
    h.1, h.2 0 (by decide) (by decide)⟩
theorem getLastD_mem_of_ne_nil :
    ∀ (l : List Nat) (a : Nat), l ≠ [] → l.getLastD a ∈ l := by
  intro l
  induction l with
  | nil => intro a h; exact absurd rfl h
  | cons x xs ih =>
      intro a _
      rw [List.getLastD_cons]
      cases hxs : xs with
      | nil => simp [List.getLastD]
      | cons y ys =>
          subst hxs
          exact List.mem_cons_of_mem x (ih x (by simp))

theorem getLastD_not_mem_dropLast :
    ∀ (l : List Nat) (a : Nat), l.Nodup → l.getLastD a ∉ l.dropLast := by
  intro l
  induction l with
  | nil => intro a _; simp
  | cons x xs ih =>
      intro a hnd
      rw [List.nodup_cons] at hnd
      cases xs with
      | nil => simp
      | cons y ys =>
          rw [List.getLastD_cons, List.dropLast_cons₂]
          intro hc
          rcases List.mem_cons.mp hc with hc2 | hc2
          · exact hnd.1 (hc2 ▸ getLastD_mem_of_ne_nil (y :: ys) x (by simp))
          · exact ih x hnd.2 hc2

theorem del_fold_sorted :
    ∀ (ds : List Nat) (u : TextParser),
      u.next_marks_revpos.Sorted (· ≤ ·) →
      (ds.foldl (fun st d =>
        removeEntryOf { st with handlers := unbind_all st.handlers d } d)
        u).next_marks_revpos.Sorted (· ≤ ·) := by
  intro ds
  induction ds with
  | nil => intro u hs; exact hs
  | cons d ds ih =>
      intro u hs
      rw [List.foldl_cons]
      refine ih _ ?_
      show (List.eraseIdx u.next_marks_revpos _).Sorted (· ≤ ·)
      exact hs.sublist (List.eraseIdx_sublist _ _)

theorem continue_terminated (σ : SearchEnv) (u : TextParser) (k : Nat) :
    (update_mark_position_continue σ u k).terminated = u.terminated := by
  cases hσk : σ k u.remainder_text with
  | none =>
      rw [update_continue_none σ u k hσk]
  | some m =>
      rw [update_continue_some σ u k m hσk]

theorem upd_fold_sorted (σ : SearchEnv) :
    ∀ (ks : List Nat) (u : TextParser), u.terminated = false →
      u.next_marks_revpos.Sorted (· ≤ ·) →
      (ks.foldl (fun st k => update_mark_position σ st k)
        u).next_marks_revpos.Sorted (· ≤ ·) := by
  intro ks
  induction ks with
  | nil => intro u _ hs; exact hs
  | cons k ks ih =>
      intro u hterm hs
      rw [List.foldl_cons, update_mark_position_not_term σ u k hterm]
      refine ih _ ((continue_terminated σ u k).trans hterm) ?_
      cases hσk : σ k u.remainder_text with
      | none =>
          rw [update_continue_none σ u k hσk]
          exact hs
      | some m =>
          rw [update_continue_some σ u k m hσk]
          exact sorted_pyInsert_bisect _ _ hs

theorem reset_preserves_inv (σ : SearchEnv) (s : TextParser) (B : Bindings)
    (hterm : s.terminated = false) (hndk : (B.map Prod.fst).Nodup)
    (hinv : ParserInv s) : ParserInv (reset_bindings σ s B) := by
  obtain ⟨hM, hR, hsort, hnd⟩ := hinv
  obtain ⟨_, _, _, F4, _, _, _, _⟩ := reset_facts σ s B hterm hndk hnd
  obtain ⟨_, hdt, hdM, hdR⟩ := del_fold_state
    (s.next_marks_re.filter (fun r => ¬ (B.map Prod.fst).contains r))
    { s with handlers := B.foldl (fun hs p => bind_one hs p.1 p.2) s.handlers }
    hM hR
  have hdsort := del_fold_sorted
    (s.next_marks_re.filter (fun r => ¬ (B.map Prod.fst).contains r))
    { s with handlers := B.foldl (fun hs p => bind_one hs p.1 p.2) s.handlers }
    hsort
  have hBterm : ((s.next_marks_re.filter
      (fun r => ¬ (B.map Prod.fst).contains r)).foldl
      (fun st d =>
        removeEntryOf { st with handlers := unbind_all st.handlers d } d)
      { s with handlers :=
        B.foldl (fun hs p => bind_one hs p.1 p.2) s.handlers }).terminated
      = false := by
    rw [hdt]
    exact hterm
  obtain ⟨_, _, huM, huR⟩ := upd_fold_state σ
    ((B.map Prod.fst).filter (fun r => ¬ s.next_marks_re.contains r))
    ((s.next_marks_re.filter (fun r => ¬ (B.map Prod.fst).contains r)).foldl
      (fun st d =>
        removeEntryOf { st with handlers := unbind_all st.handlers d } d)
      { s with handlers :=
        B.foldl (fun hs p => bind_one hs p.1 p.2) s.handlers })
    hBterm hdM hdR
  have husort := upd_fold_sorted σ
    ((B.map Prod.fst).filter (fun r => ¬ s.next_marks_re.contains r))
    ((s.next_marks_re.filter (fun r => ¬ (B.map Prod.fst).contains r)).foldl
      (fun st d =>
        removeEntryOf { st with handlers := unbind_all st.handlers d } d)
      { s with handlers :=
        B.foldl (fun hs p => bind_one hs p.1 p.2) s.handlers })
    hBterm hdsort
  exact ⟨huM, huR, husort, F4⟩

theorem parseIterate_fst (σ : SearchEnv) (π : HEnv) (s : TextParser) :
    (parseIterate σ π s).1 =
      if has_handlers (fire σ π (consumedState s)
          (s.next_marks_re.getLastD 0)).handlers (s.next_marks_re.getLastD 0)
      then update_mark_position σ (delLast (fire σ π (consumedState s)
          (s.next_marks_re.getLastD 0))) (s.next_marks_re.getLastD 0)
      else fire σ π (consumedState s) (s.next_marks_re.getLastD 0) := rfl

theorem parseIterate_snd (σ : SearchEnv) (π : HEnv) (s : TextParser) :
    (parseIterate σ π s).2 =
      Event.mark (s.next_marks_re.getLastD 0)
        (get_handler s.handlers (s.next_marks_re.getLastD 0))
        (s.next_marks_match.getLastD ⟨0, 0⟩)
        (pyTake s.remainder_text
          ((s.next_marks_revpos.getLastD 0) * (-1))) := rfl

theorem iterate_preserves_inv (σ : SearchEnv) (π : HEnv) (s : TextParser)
    (hterm : s.terminated = false) (hinv : ParserInv s)
    (hfire : fire σ π (consumedState s) (s.next_marks_re.getLastD 0)
      = consumedState s) :
    ParserInv (parseIterate σ π s).1 := by
  obtain ⟨hM, hR, hsort, hnd⟩ := hinv
  rw [parseIterate_fst, hfire]
  have hlenM2 : (delLast (consumedState s)).next_marks_match.length
      = (delLast (consumedState s)).next_marks_revpos.length := by
    show s.next_marks_match.dropLast.length
      = s.next_marks_revpos.dropLast.length
    rw [List.length_dropLast, List.length_dropLast, hM]
  have hlenR2 : (delLast (consumedState s)).next_marks_re.length
      = (delLast (consumedState s)).next_marks_revpos.length := by
    show s.next_marks_re.dropLast.length
      = s.next_marks_revpos.dropLast.length
    rw [List.length_dropLast, List.length_dropLast, hR]
  have hsort2 : (delLast (consumedState s)).next_marks_revpos.Sorted
      (· ≤ ·) := by
    show s.next_marks_revpos.dropLast.Sorted (· ≤ ·)
    exact hsort.sublist (List.dropLast_sublist _)
  have hnd2 : (delLast (consumedState s)).next_marks_re.Nodup := by
    show s.next_marks_re.dropLast.Nodup
    exact (List.dropLast_sublist _).nodup hnd
  have hlast : s.next_marks_re.getLastD 0
      ∉ (delLast (consumedState s)).next_marks_re := by
    show s.next_marks_re.getLastD 0 ∉ s.next_marks_re.dropLast
    exact getLastD_not_mem_dropLast s.next_marks_re 0 hnd
  by_cases hb : has_handlers (consumedState s).handlers
      (s.next_marks_re.getLastD 0)
  · rw [if_pos hb]
    have hterm2 : (delLast (consumedState s)).terminated = false := hterm
    rw [update_mark_position_not_term σ _ _ hterm2]
    cases hσk : σ (s.next_marks_re.getLastD 0)
        (delLast (consumedState s)).remainder_text with
    | none =>
        rw [update_continue_none σ _ _ hσk]
        exact ⟨hlenM2, hlenR2, hsort2, hnd2⟩
    | some m =>
        rw [update_continue_some σ _ _ m hσk]
        refine ⟨?_, ?_, ?_, ?_⟩
        · dsimp only
          rw [length_pyInsert, length_pyInsert, hlenM2]
        · dsimp only
          rw [length_pyInsert, length_pyInsert, hlenR2]
        · exact sorted_pyInsert_bisect _ _ hsort2
        · exact nodup_pyInsert _ _ _ hlast hnd2
  · rw [if_neg hb]
    exact ⟨hM, hR, hsort, hnd⟩
/-- C4 (corrected): during a firing the fired pattern's registry handler is
still present (the emitted event carries the handler looked up in the
pre-firing registry, over the still-present entry data); after the handler
returns, the drain loop removes the LAST entry and re-searches the fired
pattern iff the pattern still has an active registry handler — not
necessarily "the entry" of the fired pattern, which is the correction: a
handler that gets entries appended behind the fired one (see the
counterexample) makes the drain loop delete a different pattern's entry.
Concretely, a handler that unbinds its own pattern during its firing
prevents any further scheduling of it (one single firing of pattern 0 in
the trace), and a handler that rebinds a different handler to its pattern
hands all subsequent firings to the new handler (handler trace
`[20, 21]`). -/
theorem C4_firing_discipline :
    (∀ (σ : SearchEnv) (π : HEnv) (s : TextParser),
      (parseIterate σ π s).2 = Event.mark (s.next_marks_re.getLastD 0)
        (get_handler s.handlers (s.next_marks_re.getLastD 0))
        (s.next_marks_match.getLastD ⟨0, 0⟩)
        (pyTake s.remainder_text
          ((s.next_marks_revpos.getLastD 0) * (-1)))) ∧
    (∀ (σ : SearchEnv) (π : HEnv) (s : TextParser),
      has_handlers (fire σ π (consumedState s)
          (s.next_marks_re.getLastD 0)).handlers
          (s.next_marks_re.getLastD 0) = false →
      (parseIterate σ π s).1
        = fire σ π (consumedState s) (s.next_marks_re.getLastD 0)) ∧
    (∀ (σ : SearchEnv) (π : HEnv) (s : TextParser),
      has_handlers (fire σ π (consumedState s)
          (s.next_marks_re.getLastD 0)).handlers
          (s.next_marks_re.getLastD 0) = true →
      (parseIterate σ π s).1
        = update_mark_position σ (delLast (fire σ π (consumedState s)
            (s.next_marks_re.getLastD 0))) (s.next_marks_re.getLastD 0)) ∧
    (parse sEnvX hEnvUnbind 10 stateRebind).map
      (fun q => (q.2.1.filter (firesRegex 0)).length) = some 1 ∧
    (parse sEnvX hEnvRebind 10 stateRebind).map
      (fun q => q.2.1.map eventHandler)
      = some [some 20, some 21, none] := by
  refine ⟨?_, ?_, ?_, by decide, by decide⟩
  · intro σ π s
    exact parseIterate_snd σ π s
  · intro σ π s h
    rw [parseIterate_fst]
    rw [if_neg]
    intro hc
    rw [h] at hc
    exact Bool.noConfusion hc
  · intro σ π s h
    rw [parseIterate_fst, if_pos h]

/-- Closed instance of the C4 theorem: for the self-unbinding handler over
`aXbXc`, the fired pattern has no handler left after its firing, so the
drain loop does nothing further for it. -/
theorem C4_firing_discipline_witness :
    has_handlers (fire sEnvX hEnvUnbind (consumedState stateRebind)
        (stateRebind.next_marks_re.getLastD 0)).handlers
        (stateRebind.next_marks_re.getLastD 0) = false ∧
    (parseIterate sEnvX hEnvUnbind stateRebind).1
      = fire sEnvX hEnvUnbind (consumedState stateRebind)
          (stateRebind.next_marks_re.getLastD 0) :=
  ⟨by decide,
    C4_firing_discipline.2.1 sEnvX hEnvUnbind stateRebind (by decide)⟩

/-- Counterexample to C4 as stated: with a handler that prepends text and
binds a second pattern, after the firing of pattern 0 the pattern still has
an active registry handler, yet the drain loop did not remove pattern 0's
entry (it now has two entries) and the freshly bound pattern 1 has an
active handler but no entry at all — the claimed "removes the entry and
re-searches iff still bound" discipline fails. -/
theorem C4_counterexample :
    has_handlers (parseIterate sEnvPre hEnvPre statePre).1.handlers 0
      = true ∧
    (parseIterate sEnvPre hEnvPre statePre).1.next_marks_re = [0, 0] ∧
    has_handlers (parseIterate sEnvPre hEnvPre statePre).1.handlers 1
      = true ∧
    1 ∉ (parseIterate sEnvPre hEnvPre statePre).1.next_marks_re := by
  exact ⟨by decide, by decide, by decide, by decide⟩

/-- C10 (corrected): the parallel-list invariant (equal lengths, ascending
`distance_from_end`, at most one entry per regex) is preserved by
`reset_bindings` and `prepend_text_and_reset_bindings` (on a live parser
with duplicate-free binding keys), by `terminate`, and by each drain-loop
iteration of `parse` whose fired handler leaves the state unchanged (in
particular passive handlers and unbound patterns).  The restriction on the
handler is the correction: a reentrant handler that injects text can break
the invariant (see the counterexample). -/
theorem C10_parallel_invariant :
    (∀ (σ : SearchEnv) (s : TextParser) (B : Bindings),
      s.terminated = false → (B.map Prod.fst).Nodup → ParserInv s →
      ParserInv (reset_bindings σ s B)) ∧
    (∀ (σ : SearchEnv) (s : TextParser) (text : List Char) (B : Bindings),
      s.terminated = false → (B.map Prod.fst).Nodup → ParserInv s →
      ParserInv (prepend_text_and_reset_bindings σ s text B)) ∧
    (∀ s : TextParser, ParserInv s → ParserInv (terminate s)) ∧
    (∀ (σ : SearchEnv) (π : HEnv) (s : TextParser),
      s.terminated = false → ParserInv s →
      fire σ π (consumedState s) (s.next_marks_re.getLastD 0)
        = consumedState s →
      ParserInv (parseIterate σ π s).1) := by
  refine ⟨?_, ?_, ?_, ?_⟩
  · intro σ s B h1 h2 h3
    exact reset_preserves_inv σ s B h1 h2 h3
  · intro σ s text B h1 h2 h3
    exact reset_preserves_inv σ
      { s with remainder_text := text ++ s.remainder_text } B h1 h2 h3
  · intro s h
    exact h
  · intro σ π s h1 h2 h3
    exact iterate_preserves_inv σ π s h1 h2 h3

/-- Closed instance of the C10 theorem: the invariant holds after
rebinding on the spec scenario state and after one drain iteration with
the passive handler. -/
theorem C10_parallel_invariant_witness :
    stateAXbXc.terminated = false ∧
    (([(0, 10)] : Bindings).map Prod.fst).Nodup ∧
    ParserInv stateAXbXc ∧
    fire sEnvX passiveEnv (consumedState stateAXbXc)
        (stateAXbXc.next_marks_re.getLastD 0) = consumedState stateAXbXc ∧
    ParserInv (reset_bindings sEnvX stateAXbXc [(0, 10)]) ∧
    ParserInv (parseIterate sEnvX passiveEnv stateAXbXc).1 :=
  ⟨by decide, by decide, ⟨by decide, by decide, by decide, by decide⟩, rfl,
    C10_parallel_invariant.1 sEnvX stateAXbXc [(0, 10)] (by decide)
      (by decide) ⟨by decide, by decide, by decide, by decide⟩,
    C10_parallel_invariant.2.2.2 sEnvX passiveEnv stateAXbXc (by decide)
      ⟨by decide, by decide, by decide, by decide⟩ rfl⟩

/-- Counterexample to C10 as stated: the invariant holds before the call,
but inside the public operation `parse` (one drain-loop iteration with the
text-injecting handler) the regex list acquires a duplicate entry, so the
invariant is not preserved across every operation of the class. -/
theorem C10_counterexample :
    ParserInv statePre ∧
    ¬ ParserInv (parseIterate sEnvPre hEnvPre statePre).1 := by
  refine ⟨⟨by decide, by decide, by decide, by decide⟩, ?_⟩
  intro hc
  obtain ⟨_, _, _, hnd⟩ := hc
  revert hnd
  decide
